import Mathlib

/-!
# Verification of the arrow array builder core (`src/arrow/src/array/builder.rs`)

This file gives a shallow embedding of the builder layer of the arrow crate:
the typed buffer builder, the bit-packed boolean buffer builder, the primitive
builder with its lazily materialized validity bitmap, the generic list builder,
the fixed-size list builder, the union builder and the dictionary builders.

Machine buffers are modelled by lists holding their logical elements; a frozen
bit buffer's physical byte image is recovered by `bits_to_bytes` (LSB-first
packing, as `bit_util::set_bit`).  Fallible operations return their new state
together with an `Except ArrowError` result, the state being unchanged when an
error is reported, exactly as the `&mut self -> Result<_>` methods of the
source.  The `as i8` cast used for union type ids is modelled by `wrapI8`.
-/

namespace ArrowBuilder

/-- Number of set bits in a bit sequence (`Buffer::count_set_bits`; the frozen
bit buffer zero-fills its padding bits, so counting over the logical bits and
counting over the physical bytes agree). -/
def popcount (bs : List Bool) : Nat := bs.countP (fun b => b)

/-- The recoverable error taxonomy of the builder core (`ArrowError` variants
used by `builder.rs`). -/
inductive ArrowError where
  | invalidArgument
  | dictionaryKeyOverflow
  deriving DecidableEq, Repr

/-! ## Typed buffer builder (`BufferBuilder<T>`) -/

/-- `BufferBuilder<T>`: growable storage for fixed-width elements of one type.
The backing `MutableBuffer` is modelled by the list of its logical elements;
`len` of the source is `data.length` here (the source maintains
`len * size_of::<T>() == buffer.len()`). -/
structure BufferBuilder (α : Type) where
  data : List α
  deriving DecidableEq, Repr

namespace BufferBuilder

/-- `BufferBuilder::new(capacity)`; capacity only preallocates memory and never
affects logical contents, so it is ignored by the model. -/
def new (α : Type) (_capacity : Nat) : BufferBuilder α := ⟨[]⟩

/-- `BufferBuilder::len`. -/
def len (b : BufferBuilder α) : Nat := b.data.length

/-- `BufferBuilder::append`. -/
def append (b : BufferBuilder α) (v : α) : BufferBuilder α := ⟨b.data ++ [v]⟩

/-- `BufferBuilder::append_n`. -/
def append_n (b : BufferBuilder α) (n : Nat) (v : α) : BufferBuilder α :=
  ⟨b.data ++ List.replicate n v⟩

/-- `BufferBuilder::append_slice`. -/
def append_slice (b : BufferBuilder α) (vs : List α) : BufferBuilder α :=
  ⟨b.data ++ vs⟩

/-- `BufferBuilder::advance(i)`: grows the logical length by `i`, zero-filling
the new region (`buffer.resize(new_len, 0)`). -/
def advance [Zero α] (b : BufferBuilder α) (i : Nat) : BufferBuilder α :=
  ⟨b.data ++ List.replicate i (0 : α)⟩

/-- `BufferBuilder::finish`: freezes the content into an immutable buffer and
resets the builder to the empty state (`MutableBuffer::new(0)`). -/
def finish (b : BufferBuilder α) : List α × BufferBuilder α := (b.data, ⟨[]⟩)

end BufferBuilder

/-! ## Bit buffer builder (`BooleanBufferBuilder`) -/

/-- `BooleanBufferBuilder`: bit-addressed growable storage.  The byte region is
modelled by the list of logical bits; `advance` zero-fills grown bytes and
`append`/`append_n`/`append_slice` only set the true bits, which on the bit
level amounts to appending the given booleans. -/
structure BooleanBufferBuilder where
  bits : List Bool
  deriving DecidableEq, Repr

namespace BooleanBufferBuilder

/-- `BooleanBufferBuilder::new(capacity)` (zeroed byte capacity, zero logical
bits). -/
def new (_capacity : Nat) : BooleanBufferBuilder := ⟨[]⟩

/-- `BooleanBufferBuilder::len` (in bits). -/
def len (b : BooleanBufferBuilder) : Nat := b.bits.length

/-- `BooleanBufferBuilder::append`: advance by one zeroed bit, set it if `v`. -/
def append (b : BooleanBufferBuilder) (v : Bool) : BooleanBufferBuilder :=
  ⟨b.bits ++ [v]⟩

/-- `BooleanBufferBuilder::append_n`. -/
def append_n (b : BooleanBufferBuilder) (additional : Nat) (v : Bool) :
    BooleanBufferBuilder :=
  ⟨b.bits ++ List.replicate additional v⟩

/-- `BooleanBufferBuilder::append_slice`. -/
def append_slice (b : BooleanBufferBuilder) (slice : List Bool) :
    BooleanBufferBuilder :=
  ⟨b.bits ++ slice⟩

/-- `BooleanBufferBuilder::finish`: freezes the bits into an immutable buffer
and resets the builder (`MutableBuffer::new(0)`). -/
def finish (b : BooleanBufferBuilder) : List Bool × BooleanBufferBuilder :=
  (b.bits, ⟨[]⟩)

end BooleanBufferBuilder

/-- Value of at most eight bits packed LSB-first into one byte: bit `i` of the
result is the `i`-th list entry (`bit_util::set_bit` uses the LSB-first
`BIT_MASK` table). -/
def byte_of_bits : List Bool → Nat
  | [] => 0
  | b :: rest => (cond b 1 0) + 2 * byte_of_bits rest

/-- Physical byte image of a frozen bit buffer: bits are packed LSB-first into
`ceil(len/8)` bytes, the padding bits of the last byte staying zero. -/
def bits_to_bytes (bits : List Bool) : List Nat :=
  if bits.isEmpty then []
  else byte_of_bits (bits.take 8) :: bits_to_bytes (bits.drop 8)
  termination_by bits.length
  decreasing_by
    cases bits with
    | nil => simp_all
    | cons b rest => simp [List.length_drop]; omega

/-! ## Primitive builder (`PrimitiveBuilder<T>`) -/

/-- `PrimitiveBuilder<T>`: a values buffer plus an optional validity bitmap
builder, the latter only materialized once a `false` validity bit is needed. -/
structure PrimitiveBuilder (α : Type) where
  values_builder : BufferBuilder α
  bitmap_builder : Option BooleanBufferBuilder
  deriving DecidableEq, Repr

namespace PrimitiveBuilder

/-- `PrimitiveBuilder::new(capacity)`. -/
def new (α : Type) (_capacity : Nat) : PrimitiveBuilder α :=
  ⟨BufferBuilder.new α 0, none⟩

/-- `PrimitiveBuilder::len` (the values buffer's slot count). -/
def len (b : PrimitiveBuilder α) : Nat := b.values_builder.len

/-- `PrimitiveBuilder::materialize_bitmap_builder`: a no-op when a bitmap
already exists, otherwise creates one backfilled with `true` for every element
appended so far. -/
def materialize_bitmap_builder (b : PrimitiveBuilder α) : PrimitiveBuilder α :=
  match b.bitmap_builder with
  | some _ => b
  | none =>
      { b with
        bitmap_builder :=
          some ((BooleanBufferBuilder.new 0).append_n b.values_builder.len true) }

/-- `PrimitiveBuilder::append_value`: marks the bitmap true only if it already
exists, then appends to the values buffer. -/
def append_value (b : PrimitiveBuilder α) (v : α) : PrimitiveBuilder α :=
  { values_builder := b.values_builder.append v
    bitmap_builder := b.bitmap_builder.map (fun bb => bb.append true) }

/-- `PrimitiveBuilder::append_null`: materializes the bitmap, appends `false`
to it, and advances the values buffer by one zero-filled slot. -/
def append_null [Zero α] (b : PrimitiveBuilder α) : PrimitiveBuilder α :=
  let b := b.materialize_bitmap_builder
  { values_builder := b.values_builder.advance 1
    bitmap_builder := b.bitmap_builder.map (fun bb => bb.append false) }

/-- `PrimitiveBuilder::append_option`. -/
def append_option [Zero α] (b : PrimitiveBuilder α) : Option α → PrimitiveBuilder α
  | none => b.append_null
  | some v => b.append_value v

/-- `PrimitiveBuilder::append_slice`. -/
def append_slice (b : PrimitiveBuilder α) (vs : List α) : PrimitiveBuilder α :=
  { values_builder := b.values_builder.append_slice vs
    bitmap_builder := b.bitmap_builder.map (fun bb => bb.append_n vs.length true) }

/-- `PrimitiveBuilder::append_values`: rejects mismatched slice lengths before
touching any state; materializes the bitmap if any validity flag is false. -/
def append_values (b : PrimitiveBuilder α) (vs : List α) (is_valid : List Bool) :
    PrimitiveBuilder α × Except ArrowError Unit :=
  if vs.length ≠ is_valid.length then
    (b, .error .invalidArgument)
  else
    let b := if is_valid.any (fun v => !v) then b.materialize_bitmap_builder else b
    ({ values_builder := b.values_builder.append_slice vs
       bitmap_builder := b.bitmap_builder.map (fun bb => bb.append_slice is_valid) },
     .ok ())

end PrimitiveBuilder

/-- The frozen primitive array handed to `PrimitiveArray::from(data)`: logical
length, the frozen values buffer, and the optional validity buffer (absence
meaning all-valid). -/
structure PrimArray (α : Type) where
  len : Nat
  values : List α
  null_bit_buffer : Option (List Bool)
  deriving DecidableEq, Repr

namespace PrimitiveBuilder

/-- The local `null_count` computed by `PrimitiveBuilder::finish`:
`len - popcount(bitmap)` when a bitmap exists, else `len - len = 0`. -/
def finish_null_count (b : PrimitiveBuilder α) : Nat :=
  b.len - (match b.bitmap_builder with
           | some bb => popcount bb.bits
           | none => b.len)

/-- `PrimitiveBuilder::finish`: freezes the optional bitmap and the values
buffer, attaches the bitmap only when the computed null count is positive, and
resets the builder (the bitmap builder stays allocated but empty). -/
def finish (b : PrimitiveBuilder α) : PrimArray α × PrimitiveBuilder α :=
  let len := b.len
  let null_bit_buffer := b.bitmap_builder.map (fun bb => bb.bits)
  let null_count := b.finish_null_count
  (⟨len, b.values_builder.data,
    if null_count > 0 then null_bit_buffer else none⟩,
   ⟨⟨[]⟩, b.bitmap_builder.map (fun _ => ⟨[]⟩)⟩)

end PrimitiveBuilder

/-- One append-side operation of the primitive builder interface. -/
inductive PrimOp (α : Type) where
  | append_value (v : α)
  | append_null
  | append_option (v : Option α)
  | append_slice (vs : List α)
  | append_values (vs : List α) (is_valid : List Bool)
  deriving DecidableEq, Repr

/-- Applies one operation to a primitive builder; a failing `append_values`
reports its error to the caller and leaves the builder unchanged, so the state
evolution is that of the successful operations. -/
def PrimitiveBuilder.step [Zero α] (b : PrimitiveBuilder α) :
    PrimOp α → PrimitiveBuilder α
  | .append_value v => b.append_value v
  | .append_null => b.append_null
  | .append_option v => b.append_option v
  | .append_slice vs => b.append_slice vs
  | .append_values vs is_valid => (b.append_values vs is_valid).1

/-- Runs a sequence of primitive builder operations. -/
def PrimitiveBuilder.runOps [Zero α] (ops : List (PrimOp α))
    (b : PrimitiveBuilder α) : PrimitiveBuilder α :=
  ops.foldl PrimitiveBuilder.step b

/-- Value slots one primitive operation adds to the values buffer. -/
def primValuesDelta [Zero α] : PrimOp α → List α
  | .append_value v => [v]
  | .append_null => [(0 : α)]
  | .append_option none => [(0 : α)]
  | .append_option (some v) => [v]
  | .append_slice vs => vs
  | .append_values vs is_valid => if vs.length = is_valid.length then vs else []

/-- Validity bits one primitive operation contributes for its value slots. -/
def primValidityDelta : PrimOp α → List Bool
  | .append_value _ => [true]
  | .append_null => [false]
  | .append_option none => [false]
  | .append_option (some _) => [true]
  | .append_slice vs => List.replicate vs.length true
  | .append_values vs is_valid => if vs.length = is_valid.length then is_valid else []

/-! ## Generic list builder (`GenericListBuilder<OffsetSize, T>`)

The source is generic over the child `ArrayBuilder`; the embedding instantiates
the child with a primitive builder, the instantiation used by the binary and
string builders.  Offsets are modelled by `Nat` (the source's
`OffsetSize::from_usize(child_len)` of a nonnegative child length). -/

/-- `GenericListBuilder`: offsets builder (seeded with a single 0), validity
bitmap builder, child values builder, and logical length. -/
structure GenericListBuilder (α : Type) where
  offsets_builder : BufferBuilder Nat
  bitmap_builder : BooleanBufferBuilder
  values_builder : PrimitiveBuilder α
  len : Nat
  deriving DecidableEq, Repr

namespace GenericListBuilder

/-- `GenericListBuilder::with_capacity` (and `new`): the offsets builder is
seeded with a single `0` entry. -/
def with_capacity (values_builder : PrimitiveBuilder α) (_capacity : Nat) :
    GenericListBuilder α :=
  { offsets_builder := (BufferBuilder.new Nat 0).append 0
    bitmap_builder := BooleanBufferBuilder.new 0
    values_builder := values_builder
    len := 0 }

/-- `GenericListBuilder::new`. -/
def new (values_builder : PrimitiveBuilder α) : GenericListBuilder α :=
  with_capacity values_builder (values_builder.len)

/-- `GenericListBuilder::append(is_valid)`: records the child builder's current
length as the next offset and the validity flag in the bitmap; the child
builder itself is not touched. -/
def append (b : GenericListBuilder α) (is_valid : Bool) : GenericListBuilder α :=
  { b with
    offsets_builder := b.offsets_builder.append b.values_builder.len
    bitmap_builder := b.bitmap_builder.append is_valid
    len := b.len + 1 }

end GenericListBuilder

/-- The frozen list array: logical length, frozen offsets buffer, frozen child
array, and the validity buffer (always attached by `GenericListBuilder::finish`). -/
structure ListArray (α : Type) where
  len : Nat
  offsets : List Nat
  values : PrimArray α
  null_bit_buffer : List Bool
  deriving DecidableEq, Repr

/-- `GenericListBuilder::finish`: freezes the child recursively, freezes
offsets and bitmap, and re-seeds the offsets builder with a single `0` entry
(the just-reset logical length) so the builder remains usable. -/
def GenericListBuilder.finish (b : GenericListBuilder α) :
    ListArray α × GenericListBuilder α :=
  let len := b.len
  let valuesRes := b.values_builder.finish
  let offset_buffer := b.offsets_builder.data
  let null_bit_buffer := b.bitmap_builder.bits
  (⟨len, offset_buffer, valuesRes.1, null_bit_buffer⟩,
   { offsets_builder := (BufferBuilder.mk []).append 0
     bitmap_builder := ⟨[]⟩
     values_builder := valuesRes.2
     len := 0 })

/-- One operation against a list builder: either an append on the exposed
child builder (`values()`), or a delimiting `append(is_valid)` call. -/
inductive ListOp (α : Type) where
  | child (op : PrimOp α)
  | append (is_valid : Bool)
  deriving DecidableEq, Repr

/-- Applies one list-builder operation. -/
def GenericListBuilder.step [Zero α] (b : GenericListBuilder α) :
    ListOp α → GenericListBuilder α
  | .child op => { b with values_builder := b.values_builder.step op }
  | .append is_valid => b.append is_valid

/-- Runs a sequence of list-builder operations. -/
def GenericListBuilder.runOps [Zero α] (ops : List (ListOp α))
    (b : GenericListBuilder α) : GenericListBuilder α :=
  ops.foldl GenericListBuilder.step b

/-! ## Fixed-size list builder (`FixedSizeListBuilder<T>`) -/

/-- `FixedSizeListBuilder`: validity bitmap builder, child values builder,
logical length, and the declared per-slot stride `list_len` (`i32` in the
source; every constructor passes a nonnegative width). -/
structure FixedSizeListBuilder (α : Type) where
  bitmap_builder : BooleanBufferBuilder
  values_builder : PrimitiveBuilder α
  len : Nat
  list_len : Nat
  deriving DecidableEq, Repr

namespace FixedSizeListBuilder

/-- `FixedSizeListBuilder::new(values_builder, length)`. -/
def new (values_builder : PrimitiveBuilder α) (length : Nat) :
    FixedSizeListBuilder α :=
  { bitmap_builder := BooleanBufferBuilder.new 0
    values_builder := values_builder
    len := 0
    list_len := length }

/-- `FixedSizeListBuilder::append(is_valid)`. -/
def append (b : FixedSizeListBuilder α) (is_valid : Bool) :
    FixedSizeListBuilder α :=
  { b with
    bitmap_builder := b.bitmap_builder.append is_valid
    len := b.len + 1 }

end FixedSizeListBuilder

/-- The frozen fixed-size list array. -/
structure FixedSizeListArray (α : Type) where
  len : Nat
  list_len : Nat
  values : PrimArray α
  null_bit_buffer : List Bool
  deriving DecidableEq, Repr

/-- `FixedSizeListBuilder::finish`: finishes the child, then asserts
`values_data.len() / len == self.list_len as usize` whenever `len != 0`
(integer division, exactly as the source) before assembling the array; an
assertion failure aborts, modelled by `none`. -/
def FixedSizeListBuilder.finish (b : FixedSizeListBuilder α) :
    Option (FixedSizeListArray α × FixedSizeListBuilder α) :=
  let len := b.len
  let valuesRes := b.values_builder.finish
  if len ≠ 0 ∧ ¬ (valuesRes.1.values.length / len = b.list_len) then
    none
  else
    some (⟨len, b.list_len, valuesRes.1, b.bitmap_builder.bits⟩,
      { bitmap_builder := ⟨[]⟩
        values_builder := valuesRes.2
        len := 0
        list_len := b.list_len })

/-! ## Dictionary builders
(`PrimitiveDictionaryBuilder<K, V>` / `StringDictionaryBuilder<K>`)

The two builders' `append` bodies are line-for-line identical up to the value
type, so a single model parametric in the value type `α` covers both (for the
primitive builder `α` is the native value type, for the string builder it is
`String`; the `HashMap` is keyed on the value's byte representation, which
determines and is determined by the value, so the map is modelled keyed on the
value itself).  Keys produced by `K::Native::from_usize` are modelled as `Nat`;
`from_usize n` succeeds exactly when `n < keyBound`, where `keyBound` is the
count of key values representable in the key's native integer type (for `Int8`
keys, `keyBound = 128`). -/

/-- A dictionary builder: keys builder, values builder (its logical element
list), and the value-to-key map (`HashMap` modelled as an association list in
insertion order). -/
structure DictionaryBuilder (α : Type) where
  keys_builder : PrimitiveBuilder Nat
  values_builder : List α
  map : List (α × Nat)
  deriving DecidableEq, Repr

namespace DictionaryBuilder

/-- `PrimitiveDictionaryBuilder::new` / `StringDictionaryBuilder::new` with
fresh inner builders. -/
def new (α : Type) : DictionaryBuilder α := ⟨PrimitiveBuilder.new Nat 0, [], []⟩

/-- `append(value)` of both dictionary builders: a mapped value re-appends its
existing key; a new value is assigned `key = values_builder.len()`, failing
with `DictionaryKeyOverflowError` (before any mutation) when that key is not
representable; otherwise the value, key and mapping are recorded. -/
def append [DecidableEq α] (keyBound : Nat) (b : DictionaryBuilder α) (v : α) :
    DictionaryBuilder α × Except ArrowError Nat :=
  match b.map.lookup v with
  | some key =>
      ({ b with keys_builder := b.keys_builder.append_value key }, .ok key)
  | none =>
      let key := b.values_builder.length
      if key < keyBound then
        ({ keys_builder := b.keys_builder.append_value key
           values_builder := b.values_builder ++ [v]
           map := b.map ++ [(v, key)] }, .ok key)
      else
        (b, .error .dictionaryKeyOverflow)

/-- `append_null` of both dictionary builders: only the keys builder advances. -/
def append_null (b : DictionaryBuilder α) : DictionaryBuilder α :=
  { b with keys_builder := b.keys_builder.append_null }

end DictionaryBuilder

/-- The frozen dictionary array: the keys array and the value dictionary
attached as a child (`PrimitiveBuilder::finish_dict`). -/
structure DictArray (α : Type) where
  keys : PrimArray Nat
  values : List α
  deriving DecidableEq, Repr

/-- `finish` of both dictionary builders: clears the map, freezes the values
builder, and delegates to the keys builder's dictionary finish. -/
def DictionaryBuilder.finish (b : DictionaryBuilder α) :
    DictArray α × DictionaryBuilder α :=
  let keysRes := b.keys_builder.finish
  (⟨keysRes.1, b.values_builder⟩, ⟨keysRes.2, [], []⟩)

/-- One operation against a dictionary builder. -/
inductive DictOp (α : Type) where
  | append (v : α)
  | append_null
  deriving DecidableEq, Repr

/-- Applies one dictionary-builder operation (results returned to the caller
are dropped; a failing append leaves the state unchanged). -/
def DictionaryBuilder.step [DecidableEq α] (keyBound : Nat)
    (b : DictionaryBuilder α) : DictOp α → DictionaryBuilder α
  | .append v => (b.append keyBound v).1
  | .append_null => b.append_null

/-- Runs a sequence of dictionary-builder operations. -/
def DictionaryBuilder.runOps [DecidableEq α] (keyBound : Nat)
    (ops : List (DictOp α)) (b : DictionaryBuilder α) : DictionaryBuilder α :=
  ops.foldl (DictionaryBuilder.step keyBound) b

/-! ## Union builder (`UnionBuilder` / `FieldData`)

Field value buffers are raw bytes in the source, appended to through a
per-call primitive type; the embedding models the payloads with a single
scalar type `α` (the claims under verification do not depend on mixing
physical value widths).  The `as i8` cast applied to `fields.len()` when a
type id is assigned is modelled exactly by `wrapI8`. -/

/-- Two's-complement wrap of a nonnegative count into `i8` (the `as i8` cast). -/
def wrapI8 (n : Nat) : Int := (((n + 128) % 256 : Nat) : Int) - 128

/-- `FieldData`: per-field state of the union builder.  The `data_type` field
of the source only drives the dynamic dispatch of `append_null_dynamic`, which
the embedding performs directly, so it is not recorded. -/
structure FieldData (α : Type) where
  type_id : Int
  values_buffer : List α
  slots : Nat
  bitmap_builder : Option BooleanBufferBuilder
  deriving DecidableEq, Repr

namespace FieldData

/-- `FieldData::new` (`MutableBuffer::new(1)` is empty of slots). -/
def new (type_id : Int) (bitmap_builder : Option BooleanBufferBuilder) :
    FieldData α :=
  ⟨type_id, [], 0, bitmap_builder⟩

/-- `FieldData::append_to_values_buffer`. -/
def append_to_values_buffer (fd : FieldData α) (v : α) : FieldData α :=
  { fd with
    values_buffer := fd.values_buffer ++ [v]
    slots := fd.slots + 1
    bitmap_builder := fd.bitmap_builder.map (fun bb => bb.append true) }

/-- `FieldData::append_null`: only acts when this field owns a bitmap builder
(sparse layout); advances the values buffer by one zeroed slot and appends a
false validity bit. -/
def append_null [Zero α] (fd : FieldData α) : FieldData α :=
  match fd.bitmap_builder with
  | some bb =>
      { fd with
        values_buffer := fd.values_buffer ++ [(0 : α)]
        slots := fd.slots + 1
        bitmap_builder := some (bb.append false) }
  | none => fd

/-- `FieldData::append_null_dynamic`: dispatches on the stored data type to the
typed `append_null`; all supported primitive types behave identically at the
slot level, so the embedding calls `append_null` directly. -/
def append_null_dynamic [Zero α] (fd : FieldData α) : FieldData α :=
  fd.append_null

end FieldData

/-- Removes the entry with the given key from an association list, returning
the removed value and the remaining entries (`HashMap::remove`). -/
def assocRemove (name : String) :
    List (String × FieldData α) → Option (FieldData α) × List (String × FieldData α)
  | [] => (none, [])
  | (m, fd) :: rest =>
      if m = name then (some fd, rest)
      else
        let r := assocRemove name rest
        (r.1, (m, fd) :: r.2)

/-- Looks up the entry with the given key in an association list
(`HashMap::get`). -/
def assocLookup (name : String) :
    List (String × FieldData α) → Option (FieldData α)
  | [] => none
  | (m, fd) :: rest => if m = name then some fd else assocLookup name rest

/-- `UnionBuilder`: logical length, the field registry (`HashMap` modelled as
an association list; `build` below is quantified over its iteration order),
the type-id buffer, the value-offset buffer (`None` for sparse layouts), and
the optional top-level validity bitmap builder. -/
structure UnionBuilder (α : Type) where
  len : Nat
  fields : List (String × FieldData α)
  type_id_builder : BufferBuilder Int
  value_offset_builder : Option (BufferBuilder Nat)
  bitmap_builder : Option BooleanBufferBuilder
  deriving DecidableEq, Repr

namespace UnionBuilder

/-- `UnionBuilder::new_dense`. -/
def new_dense (α : Type) (_capacity : Nat) : UnionBuilder α :=
  ⟨0, [], BufferBuilder.new Int 0, some (BufferBuilder.new Nat 0), none⟩

/-- `UnionBuilder::new_sparse`. -/
def new_sparse (α : Type) (_capacity : Nat) : UnionBuilder α :=
  ⟨0, [], BufferBuilder.new Int 0, none, none⟩

/-- `UnionBuilder::append_null`: lazily materializes the top-level bitmap
(backfilling `true` for every prior row), appends `false` to it, appends
`i8::default()` (that is, `0`) to the type-id buffer, null-fills every field
for sparse layouts, and advances the logical length. -/
def append_null [Zero α] (b : UnionBuilder α) : UnionBuilder α :=
  let bb := match b.bitmap_builder with
    | none => (BooleanBufferBuilder.new (b.len + 1)).append_n b.len true
    | some bb => bb
  { len := b.len + 1
    fields :=
      if b.value_offset_builder.isNone then
        b.fields.map (fun nf => (nf.1, nf.2.append_null_dynamic))
      else b.fields
    type_id_builder := b.type_id_builder.append 0
    value_offset_builder := b.value_offset_builder
    bitmap_builder := some (bb.append false) }

/-- `UnionBuilder::append::<T>(type_name, v)`: removes the field from the
registry (creating it with type id `fields.len() as i8` on first use; a new
sparse field is backfilled with `len` nulls), appends the type id, appends the
field's slot count to the value-offset buffer for dense layouts or null-fills
every other field for sparse layouts, appends the value to the field, and
re-inserts the field. -/
def append [Zero α] (b : UnionBuilder α) (type_name : String) (v : α) :
    UnionBuilder α :=
  let removed := assocRemove type_name b.fields
  let rest := removed.2
  let field_data := match removed.1 with
    | some fd => fd
    | none =>
        match b.value_offset_builder with
        | some _ => FieldData.new (wrapI8 rest.length) none
        | none =>
            FieldData.append_null^[b.len]
              (FieldData.new (wrapI8 rest.length)
                (some (BooleanBufferBuilder.new 1)))
  let type_id_builder := b.type_id_builder.append field_data.type_id
  let value_offset_builder :=
    b.value_offset_builder.map (fun ob => ob.append field_data.slots)
  let rest :=
    if b.value_offset_builder.isNone then
      rest.map (fun nf => (nf.1, nf.2.append_null_dynamic))
    else rest
  let field_data := field_data.append_to_values_buffer v
  { len := b.len + 1
    fields := rest ++ [(type_name, field_data)]
    type_id_builder := type_id_builder
    value_offset_builder := value_offset_builder
    bitmap_builder := b.bitmap_builder.map (fun bb => bb.append true) }

end UnionBuilder

/-- One operation against a union builder. -/
inductive UnionOp (α : Type) where
  | append (type_name : String) (v : α)
  | append_null
  deriving DecidableEq, Repr

/-- Applies one union-builder operation. -/
def UnionBuilder.step [Zero α] (b : UnionBuilder α) : UnionOp α → UnionBuilder α
  | .append type_name v => b.append type_name v
  | .append_null => b.append_null

/-- Runs a sequence of union-builder operations. -/
def UnionBuilder.runOps [Zero α] (ops : List (UnionOp α)) (b : UnionBuilder α) :
    UnionBuilder α :=
  ops.foldl UnionBuilder.step b

/-- One child of the built union array: the field (name) together with its
frozen array data. -/
structure UnionChildArray (α : Type) where
  name : String
  values : List α
  len : Nat
  null_bit_buffer : Option (List Bool)
  deriving DecidableEq, Repr

/-- The per-field `(type_id, (field, array))` pairs collected by
`UnionBuilder::build` from the registry in the given iteration order. -/
def buildChildren (fieldsIter : List (String × FieldData α)) :
    List (Int × UnionChildArray α) :=
  fieldsIter.map (fun nf =>
    (nf.2.type_id,
     ⟨nf.1, nf.2.values_buffer, nf.2.slots,
      nf.2.bitmap_builder.map (fun bb => bb.bits)⟩))

/-- Stable insertion of a tagged child into a list sorted by ascending tag. -/
def insertByTypeId (x : Int × UnionChildArray α) :
    List (Int × UnionChildArray α) → List (Int × UnionChildArray α)
  | [] => [x]
  | y :: ys => if x.1 ≤ y.1 then x :: y :: ys else y :: insertByTypeId x ys

/-- Stable sort by ascending type id (`children.sort_by(partial_cmp)` on the
`i8` tag; Rust's slice sort is stable). -/
def sortByTypeId : List (Int × UnionChildArray α) → List (Int × UnionChildArray α)
  | [] => []
  | x :: xs => insertByTypeId x (sortByTypeId xs)

/-- The assembled union array handed to `UnionArray::try_new`. -/
structure UnionArrayModel (α : Type) where
  type_ids : List Int
  value_offsets : Option (List Nat)
  children : List (UnionChildArray α)
  bitmap : Option (List Bool)
  deriving DecidableEq, Repr

/-- `UnionBuilder::build`: freezes the buffers, collects each field's child
array paired with its type id — iterating the registry in the order
`fieldsIter`, since `HashMap` iteration order is arbitrary — sorts the
children by type id, strips the ids, and assembles the union array. -/
def UnionBuilder.build (b : UnionBuilder α)
    (fieldsIter : List (String × FieldData α)) : UnionArrayModel α :=
  { type_ids := b.type_id_builder.data
    value_offsets := b.value_offset_builder.map (fun ob => ob.data)
    children := (sortByTypeId (buildChildren fieldsIter)).map (fun c => c.2)
    bitmap := b.bitmap_builder.map (fun bb => bb.bits) }

/-! ## Auxiliary notions used to state the claims -/

/-- An operation that never requests a null slot: not `append_null`, not
`append_option none`, and any `append_values` carries only true validity
flags. -/
def PrimOp.isNullFree : PrimOp α → Bool
  | .append_null => false
  | .append_option none => false
  | .append_values _ is_valid => is_valid.all (fun b => b)
  | _ => true

/-- A sequence of primitive appends that never passes a null. -/
def NeverNull (ops : List (PrimOp α)) : Prop :=
  ∀ op ∈ ops, op.isNullFree = true

/-- Number of value slots one primitive operation adds to the values buffer. -/
def primDelta : PrimOp α → Nat
  | .append_value _ => 1
  | .append_null => 1
  | .append_option _ => 1
  | .append_slice vs => vs.length
  | .append_values vs is_valid => if vs.length = is_valid.length then vs.length else 0

/-- Sizes of the child-element groups delimited by the `append` calls of a
list-builder run: entry `i` is the number of child slots added between the
`i`-th and `(i+1)`-th delimiting calls (`cur` carries the size of the group
currently open). -/
def groupSizesAux (cur : Nat) : List (ListOp α) → List Nat
  | [] => []
  | .child op :: rest => groupSizesAux (cur + primDelta op) rest
  | .append _ :: rest => cur :: groupSizesAux 0 rest

/-- Sizes of the delimited child-element groups of a list-builder run. -/
def groupSizes (ops : List (ListOp α)) : List Nat := groupSizesAux 0 ops

/-- Absolute child lengths recorded at each delimiting call, starting from a
child already holding `c` elements. -/
def absLens (c : Nat) : List (ListOp α) → List Nat
  | [] => []
  | .child op :: rest => absLens (c + primDelta op) rest
  | .append _ :: rest => c :: absLens c rest

/-- Number of delimiting calls in a list-builder run. -/
def delimCount : List (ListOp α) → Nat
  | [] => 0
  | .child _ :: rest => delimCount rest
  | .append _ :: rest => delimCount rest + 1

/-- Adds the field name touched by one union operation to the first-seen
accumulator (`append_null` registers no field). -/
def stepSeen (seen : List String) : UnionOp α → List String
  | .append name _ => if name ∈ seen then seen else seen ++ [name]
  | .append_null => seen

/-- Accumulates field names in first-seen order. -/
def firstSeenAux (seen : List String) : List (UnionOp α) → List String
  | [] => seen
  | op :: rest => firstSeenAux (stepSeen seen op) rest

/-- Field names of a union run in first-seen order. -/
def firstSeenU (ops : List (UnionOp α)) : List String := firstSeenAux [] ops

/-- The registry invariant of a union run: distinct field names, one registry
entry per first-seen name, and every field's type id is the `as i8` wrap of
its name's first-seen index. -/
def UnionInvFields (seen : List String)
    (fields : List (String × FieldData α)) : Prop :=
  (fields.map Prod.fst).Nodup ∧
  (∀ n : String, n ∈ fields.map Prod.fst ↔ n ∈ seen) ∧
  fields.length = seen.length ∧
  (∀ nf ∈ fields, nf.2.type_id = wrapI8 (List.indexOf nf.1 seen))

/-- The registry invariant, read off a union builder. -/
def UnionInv (seen : List String) (b : UnionBuilder α) : Prop :=
  UnionInvFields seen b.fields

/-- One operation against a typed buffer builder. -/
inductive BufOp (α : Type) where
  | append (v : α)
  | append_n (n : Nat) (v : α)
  | append_slice (vs : List α)
  | advance (n : Nat)
  deriving DecidableEq, Repr

/-- Applies one buffer-builder operation. -/
def BufferBuilder.step [Zero α] (b : BufferBuilder α) : BufOp α → BufferBuilder α
  | .append v => b.append v
  | .append_n n v => b.append_n n v
  | .append_slice vs => b.append_slice vs
  | .advance n => b.advance n

/-- Runs a sequence of buffer-builder operations. -/
def BufferBuilder.runOps [Zero α] (ops : List (BufOp α)) (b : BufferBuilder α) :
    BufferBuilder α :=
  ops.foldl BufferBuilder.step b

/-- One operation against a bit buffer builder. -/
inductive BoolBufOp where
  | append (v : Bool)
  | append_n (n : Nat) (v : Bool)
  | append_slice (vs : List Bool)
  deriving DecidableEq, Repr

/-- Applies one bit-buffer-builder operation. -/
def BooleanBufferBuilder.step (b : BooleanBufferBuilder) :
    BoolBufOp → BooleanBufferBuilder
  | .append v => b.append v
  | .append_n n v => b.append_n n v
  | .append_slice vs => b.append_slice vs

/-- Runs a sequence of bit-buffer-builder operations. -/
def BooleanBufferBuilder.runOps (ops : List BoolBufOp)
    (b : BooleanBufferBuilder) : BooleanBufferBuilder :=
  ops.foldl BooleanBufferBuilder.step b

/-- A primitive builder whose bitmap is either identical to the other's or is
an explicit all-true bitmap where the other's is still implicit (absent): the
two are observationally equivalent producers.  The builder left by `finish`
relates to a fresh builder in exactly this way. -/
def PrimitiveBuilder.equiv (b1 b2 : PrimitiveBuilder α) : Prop :=
  b1.values_builder = b2.values_builder ∧
  (b1.bitmap_builder = b2.bitmap_builder ∨
    (b2.bitmap_builder = none ∧
     b1.bitmap_builder =
       some ⟨List.replicate b1.values_builder.data.length true⟩))

/-- Two list builders equal except that their child builders are related by
`PrimitiveBuilder.equiv`. -/
def GenericListBuilder.equivList (s1 s2 : GenericListBuilder α) : Prop :=
  s1.offsets_builder = s2.offsets_builder ∧
  s1.bitmap_builder = s2.bitmap_builder ∧
  s1.len = s2.len ∧
  s1.values_builder.equiv s2.values_builder

/-! ## Theorems -/

/-- C1.  The fixed-size-list length check of `FixedSizeListBuilder::finish` is
`values_data.len() / len == list_len` with truncating integer division, so it
is satisfiable without the child length being exactly `len * list_len`: with
stride 3 and logical length 2, a child holding 7 values (7 / 2 = 3) passes the
assertion and `finish` completes normally, although `7 ≠ 2 * 3`, contradicting
the claimed invariant (and the source's own comment, which announces a check
that the child length is a multiple of the logical length). -/
theorem fixedSizeList_finish_division_bug :
    ((FixedSizeListBuilder.finish
        (FixedSizeListBuilder.append
          (FixedSizeListBuilder.append
            (FixedSizeListBuilder.new
              ((List.range 7).foldl
                (fun c v => c.append_value (Int.ofNat v))
                (PrimitiveBuilder.new Int 0)) 3) true) true)).map
        (fun p => (p.1.values.values.length, p.1.len, p.1.list_len)))
      = some (7, 2, 3)
    ∧ (7 : Nat) ≠ 2 * 3 := by
  constructor
  · decide
  · decide

/-- Bit `j` of a byte packed LSB-first from at most eight bits is the `j`-th
input bit. -/
lemma byte_of_bits_testBit (l : List Bool) : ∀ (j : Nat), j < l.length →
    Nat.testBit (byte_of_bits l) j = l.getD j false := by
  induction l with
  | nil => intro j h; simp at h
  | cons b rest ih =>
    intro j h
    cases j with
    | zero =>
      rw [Nat.testBit_zero, List.getD_cons_zero]
      cases b
      · simp only [byte_of_bits, cond_false, decide_eq_false_iff_not]
        omega
      · simp only [byte_of_bits, cond_true, decide_eq_true_eq]
        omega
    | succ j =>
      rw [Nat.testBit_succ, List.getD_cons_succ]
      have hdiv : (cond b 1 0 + 2 * byte_of_bits rest) / 2 = byte_of_bits rest := by
        cases b <;> simp only [cond_true, cond_false] <;> omega
      simp only [byte_of_bits, hdiv]
      exact ih j (by simpa using Nat.lt_of_succ_lt_succ h)

/-- The byte image of a bit sequence has bit `i` (of byte `i / 8`, position
`i % 8`) equal to bit `i` of the input, for `i` in range. -/
lemma bits_to_bytes_testBit : ∀ (n : Nat) (bits : List Bool), bits.length ≤ n →
    ∀ (i : Nat), i < bits.length →
    Nat.testBit ((bits_to_bytes bits).getD (i / 8) 0) (i % 8) = bits.getD i false := by
  intro n
  induction n with
  | zero => intro bits hb i hi; omega
  | succ n ih =>
    intro bits hb i hi
    have hne : bits.isEmpty = false := by
      cases bits with
      | nil => simp at hi
      | cons b rest => rfl
    rw [bits_to_bytes, if_neg (by simp [hne])]
    by_cases h8 : i < 8
    · have hq : i / 8 = 0 := Nat.div_eq_of_lt h8
      have hm : i % 8 = i := Nat.mod_eq_of_lt h8
      rw [hq, hm, List.getD_cons_zero]
      rw [byte_of_bits_testBit]
      · rw [List.getD_eq_getElem?_getD, List.getD_eq_getElem?_getD,
          List.getElem?_take, if_pos h8]
      · simp only [List.length_take]
        omega
    · have hq : i / 8 = (i - 8) / 8 + 1 := by omega
      have hm : i % 8 = (i - 8) % 8 := by omega
      rw [hq, hm, List.getD_cons_succ]
      have hlen : (bits.drop 8).length ≤ n := by
        simp only [List.length_drop]; omega
      have hi' : i - 8 < (bits.drop 8).length := by
        simp only [List.length_drop]; omega
      have heq := ih (bits.drop 8) hlen (i - 8) hi'
      have hidx : 8 + (i - 8) = i := by omega
      rw [heq, List.getD_eq_getElem?_getD, List.getD_eq_getElem?_getD,
        List.getElem?_drop, hidx]

/-- The byte image of `n` bits holds `ceil(n / 8)` bytes. -/
lemma bits_to_bytes_length : ∀ (n : Nat) (bits : List Bool), bits.length ≤ n →
    (bits_to_bytes bits).length = (bits.length + 7) / 8 := by
  intro n
  induction n with
  | zero =>
    intro bits hb
    have : bits = [] := List.length_eq_zero.mp (by omega)
    subst this
    rw [bits_to_bytes]
    simp
  | succ n ih =>
    intro bits hb
    cases hbits : bits.isEmpty with
    | true =>
      have : bits = [] := by
        cases bits with
        | nil => rfl
        | cons b rest => simp at hbits
      subst this
      rw [bits_to_bytes]
      simp
    | false =>
      rw [bits_to_bytes, if_neg (by simp [hbits])]
      have hpos : 0 < bits.length := by
        cases bits with
        | nil => simp at hbits
        | cons b rest => simp
      have hlen : (bits.drop 8).length ≤ n := by
        simp only [List.length_drop]; omega
      rw [List.length_cons, ih (bits.drop 8) hlen]
      simp only [List.length_drop]
      omega

/-- C8.  Appending `[false, true, false, true]` to a fresh bit buffer builder
and freezing yields the single byte `0b00001010 = 10`; in general bit `i` of
the byte image of a frozen bit buffer equals input bit `i` (LSB-first packing),
and the image holds `ceil(len/8)` bytes. -/
theorem booleanBufferBuilder_lsb_packing :
    bits_to_bytes
        ((((((BooleanBufferBuilder.new 0).append false).append true).append
              false).append true).finish.1)
      = [10]
    ∧ (∀ (input : List Bool) (i : Nat), i < input.length →
        Nat.testBit
          ((bits_to_bytes
              (((BooleanBufferBuilder.new 0).append_slice input).finish.1)).getD
            (i / 8) 0)
          (i % 8) = input.getD i false)
    ∧ (∀ input : List Bool,
        (bits_to_bytes
            (((BooleanBufferBuilder.new 0).append_slice input).finish.1)).length
          = (input.length + 7) / 8) := by
  refine ⟨?_, ?_, ?_⟩
  · have h1 :
        (((((BooleanBufferBuilder.new 0).append false).append true).append
              false).append true).finish.1 = [false, true, false, true] := by
      decide
    rw [h1]
    simp [bits_to_bytes, byte_of_bits]
  · intro input i hi
    have hfin :
        ((BooleanBufferBuilder.new 0).append_slice input).finish.1 = input := by
      simp [BooleanBufferBuilder.new, BooleanBufferBuilder.append_slice,
        BooleanBufferBuilder.finish]
    rw [hfin]
    exact bits_to_bytes_testBit input.length input le_rfl i hi
  · intro input
    have hfin :
        ((BooleanBufferBuilder.new 0).append_slice input).finish.1 = input := by
      simp [BooleanBufferBuilder.new, BooleanBufferBuilder.append_slice,
        BooleanBufferBuilder.finish]
    rw [hfin]
    exact bits_to_bytes_length input.length input le_rfl

/-- C8 witness: the packing theorem applied at the concrete input
`[false, true, false, true]` and bit 1. -/
theorem booleanBufferBuilder_lsb_packing_witness :
    Nat.testBit
        ((bits_to_bytes
            (((BooleanBufferBuilder.new 0).append_slice
                [false, true, false, true]).finish.1)).getD 0 0) 1 = true := by
  have h := booleanBufferBuilder_lsb_packing.2.1 [false, true, false, true] 1
    (by decide)
  rw [h]
  decide

/-- Whether any entry of a boolean list is false, as the negation of all
entries being true. -/
lemma any_not_eq_not_all (l : List Bool) :
    l.any (fun v => !v) = !l.all (fun v => v) := by
  induction l with
  | nil => rfl
  | cons b t ih => cases b <;> simp [ih]

/-- An all-true boolean list is a replication of `true`. -/
lemma all_true_eq_replicate (l : List Bool) (h : l.all (fun v => v) = true) :
    l = List.replicate l.length true := by
  induction l with
  | nil => rfl
  | cons b t ih =>
    simp only [List.all_cons, Bool.and_eq_true] at h
    rw [List.length_cons, List.replicate_succ, h.1, ← ih h.2]

/-- Values-buffer effect of one primitive builder step. -/
lemma PrimitiveBuilder.step_values [Zero α] (b : PrimitiveBuilder α)
    (op : PrimOp α) :
    (b.step op).values_builder.data = b.values_builder.data ++ primValuesDelta op := by
  obtain ⟨⟨v⟩, bm⟩ := b
  cases op with
  | append_value w =>
    simp [step, append_value, primValuesDelta, BufferBuilder.append]
  | append_null =>
    cases bm <;>
      simp [step, append_null, materialize_bitmap_builder, primValuesDelta,
        BufferBuilder.advance]
  | append_option o =>
    cases o with
    | none =>
      cases bm <;>
        simp [step, append_option, append_null, materialize_bitmap_builder,
          primValuesDelta, BufferBuilder.advance]
    | some w =>
      simp [step, append_option, append_value, primValuesDelta,
        BufferBuilder.append]
  | append_slice vs =>
    simp [step, append_slice, primValuesDelta, BufferBuilder.append_slice]
  | append_values vs is_valid =>
    by_cases hlen : vs.length = is_valid.length
    · cases hm : is_valid.any (fun v => !v) with
      | false =>
        simp [step, append_values, hlen, hm, primValuesDelta,
          BufferBuilder.append_slice]
      | true =>
        cases bm <;>
          simp [step, append_values, hlen, hm, materialize_bitmap_builder,
            primValuesDelta, BufferBuilder.append_slice]
    · simp [step, append_values, hlen, primValuesDelta]

/-- Bitmap effect of one primitive builder step: an existing bitmap is
extended with the step's validity bits; an absent bitmap stays absent when the
bits are all true, and otherwise is materialized with a `true` backfill before
the bits are appended. -/
lemma PrimitiveBuilder.step_bitmap [Zero α] (b : PrimitiveBuilder α)
    (op : PrimOp α) :
    (b.step op).bitmap_builder =
      match b.bitmap_builder with
      | some bb => some ⟨bb.bits ++ primValidityDelta op⟩
      | none =>
          if (primValidityDelta op).all (fun v => v) then none
          else some ⟨List.replicate b.values_builder.data.length true ++
                      primValidityDelta op⟩ := by
  obtain ⟨⟨v⟩, bm⟩ := b
  cases op with
  | append_value w =>
    cases bm <;>
      simp [step, append_value, primValidityDelta, BooleanBufferBuilder.append]
  | append_null =>
    cases bm <;>
      simp [step, append_null, materialize_bitmap_builder, primValidityDelta,
        BooleanBufferBuilder.append, BooleanBufferBuilder.append_n,
        BooleanBufferBuilder.new, BufferBuilder.len]
  | append_option o =>
    cases o with
    | none =>
      cases bm <;>
        simp [step, append_option, append_null, materialize_bitmap_builder,
          primValidityDelta, BooleanBufferBuilder.append,
          BooleanBufferBuilder.append_n, BooleanBufferBuilder.new,
          BufferBuilder.len]
    | some w =>
      cases bm <;>
        simp [step, append_option, append_value, primValidityDelta,
          BooleanBufferBuilder.append]
  | append_slice vs =>
    have hall : (List.replicate vs.length true).all (fun v => v) = true := by
      simp only [List.all_eq_true]
      intro x hx
      exact List.eq_of_mem_replicate hx
    cases bm <;>
      simp [step, append_slice, primValidityDelta,
        BooleanBufferBuilder.append_n, hall]
  | append_values vs is_valid =>
    by_cases hlen : vs.length = is_valid.length
    · cases hm : is_valid.any (fun v => !v) with
      | false =>
        have hall : is_valid.all (fun v => v) = true := by
          rw [any_not_eq_not_all] at hm
          simpa using hm
        cases bm <;>
          simp [step, append_values, hlen, hm, primValidityDelta, hall,
            BooleanBufferBuilder.append_slice]
      | true =>
        have hall : is_valid.all (fun v => v) = false := by
          rw [any_not_eq_not_all] at hm
          simpa using hm
        cases bm <;>
          simp [step, append_values, hlen, hm, primValidityDelta, hall,
            materialize_bitmap_builder, BooleanBufferBuilder.append_slice,
            BooleanBufferBuilder.append_n, BooleanBufferBuilder.new,
            BufferBuilder.len]
    · cases bm <;> simp [step, append_values, hlen, primValidityDelta]

/-- The two deltas of a step cover the same number of slots. -/
lemma primDelta_length [Zero α] (op : PrimOp α) :
    (primValuesDelta op).length = (primValidityDelta op).length := by
  cases op with
  | append_value w => rfl
  | append_null => rfl
  | append_option o => cases o <;> rfl
  | append_slice vs => simp [primValuesDelta, primValidityDelta]
  | append_values vs is_valid =>
    by_cases hlen : vs.length = is_valid.length <;>
      simp [primValuesDelta, primValidityDelta, hlen]

/-- The slot growth of a step agrees with `primDelta`. -/
lemma primValuesDelta_length [Zero α] (op : PrimOp α) :
    (primValuesDelta op).length = primDelta op := by
  cases op with
  | append_value w => rfl
  | append_null => rfl
  | append_option o => cases o <;> rfl
  | append_slice vs => rfl
  | append_values vs is_valid =>
    by_cases hlen : vs.length = is_valid.length <;>
      simp [primValuesDelta, primDelta, hlen]

/-- A property preserved by every step holds after any run. -/
lemma PrimitiveBuilder.runOps_preserve [Zero α]
    (P : PrimitiveBuilder α → Prop)
    (hstep : ∀ b op, P b → P (b.step op)) :
    ∀ (ops : List (PrimOp α)) (b : PrimitiveBuilder α),
      P b → P (PrimitiveBuilder.runOps ops b) := by
  intro ops
  induction ops with
  | nil => intro b hb; exact hb
  | cons op rest ih =>
    intro b hb
    exact ih (b.step op) (hstep b op hb)

/-- In every reachable builder state, a materialized bitmap covers exactly the
elements of the values buffer. -/
lemma PrimitiveBuilder.run_bitmap_length [Zero α] (ops : List (PrimOp α)) :
    ∀ bb, (PrimitiveBuilder.runOps ops (PrimitiveBuilder.new α 0)).bitmap_builder
        = some bb →
      bb.bits.length =
        (PrimitiveBuilder.runOps ops (PrimitiveBuilder.new α 0)).values_builder.data.length := by
  refine PrimitiveBuilder.runOps_preserve
    (fun b => ∀ bb, b.bitmap_builder = some bb →
      bb.bits.length = b.values_builder.data.length) ?_ ops _ ?_
  · intro b op hb bb hbb
    rw [PrimitiveBuilder.step_bitmap] at hbb
    rw [PrimitiveBuilder.step_values, List.length_append]
    cases hbm : b.bitmap_builder with
    | some bb0 =>
      rw [hbm] at hbb
      simp only [Option.some.injEq] at hbb
      subst hbb
      simp only [List.length_append]
      rw [hb bb0 hbm, primDelta_length]
    | none =>
      rw [hbm] at hbb
      by_cases hall : (primValidityDelta op).all (fun v => v) = true
      · simp [hall] at hbb
      · simp only [hall] at hbb
        simp only [Bool.false_eq_true, if_false, Option.some.injEq] at hbb
        subst hbb
        simp only [List.length_append, List.length_replicate]
        rw [primDelta_length]
  · intro bb hbb
    simp [PrimitiveBuilder.new] at hbb

/-- A list's length splits into its true count and its false count. -/
lemma length_eq_popcount_add_count_not (l : List Bool) :
    l.length = popcount l + l.countP (fun v => !v) := by
  rw [popcount, List.length_eq_countP_add_countP (fun v => v)]
  simp

/-- C2.  For every run of a primitive builder, `finish` computes
`null_count = len - popcount(bitmap)` when a bitmap was materialized and `0`
otherwise; the frozen bitmap is attached to the produced array exactly when
that null count is positive (an all-valid bitmap is dropped); in every
reachable state the bitmap covers exactly `len` bits, so the null count is the
number of false validity bits. -/
theorem primitiveBuilder_finish_null_count (ops : List (PrimOp Int))
    (st : PrimitiveBuilder Int)
    (hst : st = PrimitiveBuilder.runOps ops (PrimitiveBuilder.new Int 0)) :
    (st.finish.1.null_bit_buffer.isSome = true ↔ 0 < st.finish_null_count)
    ∧ (∀ bb, st.bitmap_builder = some bb →
        st.finish_null_count = st.len - popcount bb.bits
        ∧ bb.bits.length = st.len
        ∧ st.finish_null_count = bb.bits.countP (fun v => !v))
    ∧ (st.bitmap_builder = none → st.finish_null_count = 0)
    ∧ (∀ bs, st.finish.1.null_bit_buffer = some bs →
        st.finish.1.len - popcount bs = st.finish_null_count)
    ∧ (∀ bb, st.bitmap_builder = some bb → popcount bb.bits = st.len →
        st.finish.1.null_bit_buffer = none) := by
  have hinv : ∀ bb, st.bitmap_builder = some bb →
      bb.bits.length = st.values_builder.data.length := by
    rw [hst]; exact PrimitiveBuilder.run_bitmap_length ops
  clear hst
  refine ⟨?_, ?_, ?_, ?_, ?_⟩
  · cases hbm : st.bitmap_builder with
    | none =>
      simp [PrimitiveBuilder.finish, PrimitiveBuilder.finish_null_count, hbm]
    | some bb =>
      by_cases hnc : 0 < st.finish_null_count
      · simp [PrimitiveBuilder.finish, hbm, hnc]
      · simp [PrimitiveBuilder.finish, hbm, hnc]
  · intro bb hbm
    have hlen := hinv bb hbm
    have hlen' : bb.bits.length = st.len := hlen
    refine ⟨by simp [PrimitiveBuilder.finish_null_count, hbm], hlen', ?_⟩
    have hsplit := length_eq_popcount_add_count_not bb.bits
    simp only [PrimitiveBuilder.finish_null_count, hbm]
    omega
  · intro hbm
    simp [PrimitiveBuilder.finish_null_count, hbm]
  · intro bs hbs
    cases hbm : st.bitmap_builder with
    | none => simp [PrimitiveBuilder.finish, hbm] at hbs
    | some bb =>
      by_cases hnc : 0 < st.finish_null_count
      · have hbs' : bs = bb.bits := by
          simp [PrimitiveBuilder.finish, hbm, hnc] at hbs
          exact hbs.symm
        subst hbs'
        simp [PrimitiveBuilder.finish, PrimitiveBuilder.finish_null_count, hbm]
      · simp [PrimitiveBuilder.finish, hbm, hnc] at hbs
  · intro bb hbm hpc
    have hnc : st.finish_null_count = 0 := by
      simp [PrimitiveBuilder.finish_null_count, hbm, hpc]
    simp [PrimitiveBuilder.finish, hbm, hnc]

/-- C2 witness: the finish theorem applied to the spec's example run
`[1, null, -2]` followed by `append_values([1,2,3,4], [t,t,f,t])`. -/
theorem primitiveBuilder_finish_null_count_witness :
    ((PrimitiveBuilder.runOps
        [PrimOp.append_value 1, PrimOp.append_null, PrimOp.append_value (-2),
         PrimOp.append_values [1, 2, 3, 4] [true, true, false, true]]
        (PrimitiveBuilder.new Int 0)).finish.1.null_bit_buffer.isSome = true)
    ∧ (PrimitiveBuilder.runOps
        [PrimOp.append_value 1, PrimOp.append_null, PrimOp.append_value (-2),
         PrimOp.append_values [1, 2, 3, 4] [true, true, false, true]]
        (PrimitiveBuilder.new Int 0)).finish_null_count
      = List.countP (fun v => !v)
          [true, false, true, true, true, false, true] := by
  have h := primitiveBuilder_finish_null_count
    [PrimOp.append_value 1, PrimOp.append_null, PrimOp.append_value (-2),
     PrimOp.append_values [1, 2, 3, 4] [true, true, false, true]] _ rfl
  refine ⟨h.1.mpr (by decide), ?_⟩
  have h2 := h.2.1 ⟨[true, false, true, true, true, false, true]⟩ (by decide)
  exact h2.2.2

/-- A null-free operation contributes only true validity bits. -/
lemma validityDelta_all_of_nullFree (op : PrimOp Int)
    (h : op.isNullFree = true) :
    (primValidityDelta op).all (fun v => v) = true := by
  cases op with
  | append_value w => rfl
  | append_null => simp [PrimOp.isNullFree] at h
  | append_option o =>
    cases o with
    | none => simp [PrimOp.isNullFree] at h
    | some w => rfl
  | append_slice vs =>
    simp only [primValidityDelta, List.all_eq_true]
    intro x hx
    exact List.eq_of_mem_replicate hx
  | append_values vs is_valid =>
    simp only [PrimOp.isNullFree] at h
    by_cases hlen : vs.length = is_valid.length <;>
      simp [primValidityDelta, hlen, h]

/-- A run of null-free operations never materializes the bitmap. -/
lemma run_bitmap_none_of_nullfree :
    ∀ (ops : List (PrimOp Int)) (b : PrimitiveBuilder Int),
      (∀ op ∈ ops, op.isNullFree = true) → b.bitmap_builder = none →
      (PrimitiveBuilder.runOps ops b).bitmap_builder = none := by
  intro ops
  induction ops with
  | nil => intro b _ hb; exact hb
  | cons op rest ih =>
    intro b hops hb
    have hstep : (b.step op).bitmap_builder = none := by
      rw [PrimitiveBuilder.step_bitmap, hb]
      simp [validityDelta_all_of_nullFree op (hops op (by simp))]
    exact ih (b.step op) (fun o ho => hops o (by simp [ho])) hstep

/-- C3.  A run that never requests a null (no `append_null`, no
`append_option none`, no false `append_values` flag) leaves the bitmap
unmaterialized and produces an array with no validity buffer; the first
`append_null` on a builder without a bitmap creates one holding `true` for
every prior element followed by `false`, and advances the values buffer by one
zero-filled slot. -/
theorem primitiveBuilder_lazy_materialization (ops : List (PrimOp Int))
    (h : NeverNull ops) :
    (PrimitiveBuilder.runOps ops (PrimitiveBuilder.new Int 0)).bitmap_builder = none
    ∧ (PrimitiveBuilder.runOps ops
        (PrimitiveBuilder.new Int 0)).finish.1.null_bit_buffer = none
    ∧ (∀ b : PrimitiveBuilder Int, b.bitmap_builder = none →
        (b.append_null).values_builder.data = b.values_builder.data ++ [(0 : Int)]
        ∧ (b.append_null).bitmap_builder
            = some ⟨List.replicate b.values_builder.data.length true ++ [false]⟩) := by
  have h1 : (PrimitiveBuilder.runOps ops
      (PrimitiveBuilder.new Int 0)).bitmap_builder = none :=
    run_bitmap_none_of_nullfree ops _ h rfl
  refine ⟨h1, ?_, ?_⟩
  · simp [PrimitiveBuilder.finish, h1]
  · intro b hb
    constructor
    · simp [PrimitiveBuilder.append_null,
        PrimitiveBuilder.materialize_bitmap_builder, hb,
        BufferBuilder.advance, List.replicate_one]
    · simp [PrimitiveBuilder.append_null,
        PrimitiveBuilder.materialize_bitmap_builder, hb,
        BooleanBufferBuilder.append, BooleanBufferBuilder.append_n,
        BooleanBufferBuilder.new, BufferBuilder.len]

/-- C3 witness: a two-value null-free run has no bitmap, and a first
`append_null` after one append backfills one true bit. -/
theorem primitiveBuilder_lazy_materialization_witness :
    (PrimitiveBuilder.runOps [PrimOp.append_value 5, PrimOp.append_value 7]
        (PrimitiveBuilder.new Int 0)).bitmap_builder = none
    ∧ ((⟨⟨[5]⟩, none⟩ : PrimitiveBuilder Int).append_null).bitmap_builder
        = some ⟨[true, false]⟩ := by
  have h := primitiveBuilder_lazy_materialization
    [PrimOp.append_value 5, PrimOp.append_value 7]
    (by unfold NeverNull; decide)
  refine ⟨h.1, ?_⟩
  have h3 := (h.2.2 ⟨⟨[5]⟩, none⟩ rfl).2
  rw [h3]
  rfl

/-- C4.  Appending an already-mapped value to a dictionary builder appends the
existing key to the keys builder, returns it, and leaves the values builder
and the map untouched; a new value is assigned `key = values_builder.len()`,
appended to the values builder, recorded in the map and in the keys builder;
consequently over any run the assigned keys are dense, `0, 1, 2, …` in
first-seen order; and the spec's example sequence
`"abc", null, "def", "def", "abc"` finishes to keys `[0, _, 1, 1, 0]` with
null position 1 over the two-element dictionary `["abc", "def"]`. -/
theorem dictionaryBuilder_append_dedup {α : Type} [DecidableEq α]
    (keyBound : Nat) (b : DictionaryBuilder α) (v : α) :
    (∀ key, b.map.lookup v = some key →
      b.append keyBound v
        = ({ b with keys_builder := b.keys_builder.append_value key },
           .ok key))
    ∧ (b.map.lookup v = none → b.values_builder.length < keyBound →
      b.append keyBound v
        = (⟨b.keys_builder.append_value b.values_builder.length,
            b.values_builder ++ [v],
            b.map ++ [(v, b.values_builder.length)]⟩,
           .ok b.values_builder.length))
    ∧ (∀ ops : List (DictOp α),
        (DictionaryBuilder.runOps keyBound ops
            (DictionaryBuilder.new α)).map.map Prod.snd
          = List.range (DictionaryBuilder.runOps keyBound ops
              (DictionaryBuilder.new α)).values_builder.length)
    ∧ ((DictionaryBuilder.runOps 128
          [DictOp.append "abc", DictOp.append_null, DictOp.append "def",
           DictOp.append "def", DictOp.append "abc"]
          (DictionaryBuilder.new String)).finish.1
        = ⟨⟨5, [0, 0, 1, 1, 0], some [true, false, true, true, true]⟩,
           ["abc", "def"]⟩) := by
  refine ⟨?_, ?_, ?_, by decide⟩
  · intro key hkey
    simp [DictionaryBuilder.append, hkey]
  · intro hnone hlt
    simp [DictionaryBuilder.append, hnone, hlt]
  · intro ops
    induction ops using List.reverseRecOn with
    | nil => simp [DictionaryBuilder.runOps, DictionaryBuilder.new]
    | append_singleton rest op ih =>
      rw [DictionaryBuilder.runOps, List.foldl_append, List.foldl_cons,
        List.foldl_nil]
      rw [DictionaryBuilder.runOps] at ih
      set st := rest.foldl (DictionaryBuilder.step keyBound)
        (DictionaryBuilder.new α) with hst
      cases op with
      | append w =>
        cases hkey : st.map.lookup w with
        | some key =>
          simp [DictionaryBuilder.step, DictionaryBuilder.append, hkey, ih]
        | none =>
          by_cases hlt : st.values_builder.length < keyBound
          · simp [DictionaryBuilder.step, DictionaryBuilder.append, hkey, hlt,
              ih, List.range_succ]
          · simp [DictionaryBuilder.step, DictionaryBuilder.append, hkey, hlt,
              ih]
      | append_null =>
        simp [DictionaryBuilder.step, DictionaryBuilder.append_null, ih]

/-- C4 witness: the dedup theorem applied to a builder already holding "abc":
re-appending "abc" returns key 0, appending the new value "xyz" returns the
next dense key 1. -/
theorem dictionaryBuilder_append_dedup_witness :
    ((DictionaryBuilder.runOps 128 [DictOp.append "abc"]
        (DictionaryBuilder.new String)).append 128 "abc").2 = Except.ok 0
    ∧ ((DictionaryBuilder.runOps 128 [DictOp.append "abc"]
        (DictionaryBuilder.new String)).append 128 "xyz").2 = Except.ok 1 := by
  have h1 := (dictionaryBuilder_append_dedup 128
    (DictionaryBuilder.runOps 128 [DictOp.append "abc"]
      (DictionaryBuilder.new String)) "abc").1 0 (by decide)
  have h2 := (dictionaryBuilder_append_dedup 128
    (DictionaryBuilder.runOps 128 [DictOp.append "abc"]
      (DictionaryBuilder.new String)) "xyz").2.1 (by decide) (by decide)
  exact ⟨congrArg Prod.snd h1, congrArg Prod.snd h2⟩

/-- C5.  A dictionary-builder append reports `DictionaryKeyOverflowError`
exactly when the value is new and the candidate key
`values_builder.len()` is not representable in the key type; a repeated value
never overflows; and on overflow the builder state is returned unchanged. -/
theorem dictionaryBuilder_key_overflow {α : Type} [DecidableEq α]
    (keyBound : Nat) (b : DictionaryBuilder α) (v : α) :
    (∀ key, b.map.lookup v = some key →
      (b.append keyBound v).2 = Except.ok key)
    ∧ ((b.append keyBound v).2 = Except.error ArrowError.dictionaryKeyOverflow
        ↔ b.map.lookup v = none ∧ ¬ b.values_builder.length < keyBound)
    ∧ (b.map.lookup v = none → ¬ b.values_builder.length < keyBound →
      b.append keyBound v = (b, Except.error ArrowError.dictionaryKeyOverflow)) := by
  refine ⟨?_, ?_, ?_⟩
  · intro key hkey
    simp [DictionaryBuilder.append, hkey]
  · cases hkey : b.map.lookup v with
    | some key => simp [DictionaryBuilder.append, hkey]
    | none =>
      by_cases hlt : b.values_builder.length < keyBound <;>
        simp [DictionaryBuilder.append, hkey, hlt]
  · intro hnone hlt
    simp [DictionaryBuilder.append, hnone, hlt]

/-- C5 witness: with a one-key bound, the second distinct value overflows and
leaves the builder unchanged, while re-appending the first value still
succeeds. -/
theorem dictionaryBuilder_key_overflow_witness :
    ((DictionaryBuilder.runOps 1 [DictOp.append "abc"]
        (DictionaryBuilder.new String)).append 1 "zzz")
      = (DictionaryBuilder.runOps 1 [DictOp.append "abc"]
          (DictionaryBuilder.new String),
         Except.error ArrowError.dictionaryKeyOverflow)
    ∧ ((DictionaryBuilder.runOps 1 [DictOp.append "abc"]
        (DictionaryBuilder.new String)).append 1 "abc").2 = Except.ok 0 := by
  have h := dictionaryBuilder_key_overflow 1
    (DictionaryBuilder.runOps 1 [DictOp.append "abc"]
      (DictionaryBuilder.new String)) "zzz"
  have h2 := (dictionaryBuilder_key_overflow 1
    (DictionaryBuilder.runOps 1 [DictOp.append "abc"]
      (DictionaryBuilder.new String)) "abc").1 0 (by decide)
  exact ⟨h.2.2 (by decide) (by decide), h2⟩

/-- One primitive step grows the values buffer by `primDelta` slots. -/
lemma PrimitiveBuilder.step_len [Zero α] (b : PrimitiveBuilder α)
    (op : PrimOp α) :
    (b.step op).values_builder.len = b.values_builder.len + primDelta op := by
  show (b.step op).values_builder.data.length
    = b.values_builder.data.length + primDelta op
  rw [PrimitiveBuilder.step_values, List.length_append, primValuesDelta_length]

/-- The offsets accumulated by a list-builder run are the starting offsets
followed by the absolute child lengths recorded at each delimiting call. -/
lemma GenericListBuilder.runOps_offsets [Zero α] :
    ∀ (ops : List (ListOp α)) (st : GenericListBuilder α),
      (GenericListBuilder.runOps ops st).offsets_builder.data
        = st.offsets_builder.data ++ absLens st.values_builder.len ops := by
  intro ops
  induction ops with
  | nil => intro st; simp [GenericListBuilder.runOps, absLens]
  | cons op rest ih =>
    intro st
    rw [GenericListBuilder.runOps, List.foldl_cons,
      ← GenericListBuilder.runOps]
    cases op with
    | child p =>
      rw [ih]
      have hl : (st.step (ListOp.child p)).values_builder.len
          = st.values_builder.len + primDelta p := by
        simp only [GenericListBuilder.step]
        exact PrimitiveBuilder.step_len st.values_builder p
      rw [hl]
      simp [GenericListBuilder.step, absLens]
    | append is_valid =>
      rw [ih]
      simp [GenericListBuilder.step, GenericListBuilder.append,
        BufferBuilder.append, absLens]

/-- The absolute delimit lengths, prefixed with the starting offset, form the
scan of the group sizes. -/
lemma absLens_scanl :
    ∀ (ops : List (ListOp α)) (c cur : Nat),
      c :: absLens (c + cur) ops
        = List.scanl (· + ·) c (groupSizesAux cur ops) := by
  intro ops
  induction ops with
  | nil => intro c cur; simp [absLens, groupSizesAux, List.scanl_nil]
  | cons op rest ih =>
    intro c cur
    cases op with
    | child p =>
      simp only [absLens, groupSizesAux]
      have := ih c (cur + primDelta p)
      rw [← Nat.add_assoc] at this
      exact this
    | append is_valid =>
      simp only [absLens, groupSizesAux, List.scanl_cons]
      rw [List.singleton_append]
      have := ih (c + cur) 0
      rw [Nat.add_zero] at this
      rw [this]

/-- A scan by addition over naturals starts at its seed. -/
lemma scanl_add_getD_zero (l : List Nat) (c : Nat) :
    (List.scanl (· + ·) c l).getD 0 0 = c := by
  cases l <;> simp [List.scanl_nil, List.scanl_cons]

/-- A scan by addition over naturals is monotonically non-decreasing. -/
lemma scanl_add_chain (l : List Nat) :
    ∀ c : Nat, List.Chain' (· ≤ ·) (List.scanl (· + ·) c l) := by
  induction l with
  | nil => intro c; simp [List.scanl_nil]
  | cons a t ih =>
    intro c
    rw [List.scanl_cons, List.singleton_append, List.chain'_cons']
    refine ⟨?_, ih (c + a)⟩
    intro b hb
    cases t <;> simp [List.scanl_nil, List.scanl_cons] at hb <;> omega

/-- Consecutive scan entries differ by the scanned element. -/
lemma scanl_add_getD :
    ∀ (l : List Nat) (c i : Nat), i < l.length →
      (List.scanl (· + ·) c l).getD (i + 1) 0
        = (List.scanl (· + ·) c l).getD i 0 + l.getD i 0 := by
  intro l
  induction l with
  | nil => intro c i h; simp at h
  | cons a t ih =>
    intro c i h
    rw [List.scanl_cons, List.singleton_append]
    cases i with
    | zero =>
      simp only [List.getD_cons_succ, List.getD_cons_zero]
      exact scanl_add_getD_zero t (c + a)
    | succ i =>
      simp only [List.getD_cons_succ]
      exact ih (c + a) i (by simpa using Nat.lt_of_succ_lt_succ h)

/-- The group-size list has one entry per delimiting call. -/
lemma groupSizesAux_length :
    ∀ (ops : List (ListOp α)) (cur : Nat),
      (groupSizesAux cur ops).length = delimCount ops := by
  intro ops
  induction ops with
  | nil => intro cur; rfl
  | cons op rest ih =>
    intro cur
    cases op with
    | child p => simp [groupSizesAux, delimCount, ih]
    | append is_valid => simp [groupSizesAux, delimCount, ih]

/-- A list-builder run advances the logical length by one per delimiting
call. -/
lemma GenericListBuilder.runOps_len [Zero α] :
    ∀ (ops : List (ListOp α)) (st : GenericListBuilder α),
      (GenericListBuilder.runOps ops st).len = st.len + delimCount ops := by
  intro ops
  induction ops with
  | nil => intro st; simp [GenericListBuilder.runOps, delimCount]
  | cons op rest ih =>
    intro st
    rw [GenericListBuilder.runOps, List.foldl_cons,
      ← GenericListBuilder.runOps, ih]
    cases op with
    | child p => simp [GenericListBuilder.step, delimCount]
    | append is_valid =>
      simp [GenericListBuilder.step, GenericListBuilder.append, delimCount]
      omega

/-- C7.  Over any run of a generic list builder from fresh, the offsets buffer
is the scan of the delimited group sizes: it has `len + 1` entries, begins
with 0, is monotonically non-decreasing, and consecutive entries differ by the
number of child elements appended between the corresponding delimiting calls;
a delimiting `append` records the child's current length and does not touch
the child builder. -/
theorem genericListBuilder_offsets (ops : List (ListOp Int))
    (st : GenericListBuilder Int)
    (hst : st = GenericListBuilder.runOps ops
      (GenericListBuilder.new (PrimitiveBuilder.new Int 0))) :
    st.offsets_builder.data = List.scanl (· + ·) 0 (groupSizes ops)
    ∧ st.offsets_builder.data.length = st.len + 1
    ∧ st.offsets_builder.data.getD 0 0 = 0
    ∧ List.Chain' (· ≤ ·) st.offsets_builder.data
    ∧ (∀ (b : GenericListBuilder Int) (is_valid : Bool),
        (b.append is_valid).values_builder = b.values_builder
        ∧ (b.append is_valid).offsets_builder.data
            = b.offsets_builder.data ++ [b.values_builder.len])
    ∧ (∀ i, i < (groupSizes ops).length →
        st.offsets_builder.data.getD (i + 1) 0
            - st.offsets_builder.data.getD i 0
          = (groupSizes ops).getD i 0) := by
  have hoff : st.offsets_builder.data = List.scanl (· + ·) 0 (groupSizes ops) := by
    rw [hst, GenericListBuilder.runOps_offsets]
    show [0] ++ absLens 0 ops = _
    have := absLens_scanl ops 0 0
    rw [Nat.add_zero] at this
    rw [groupSizes, ← this, List.singleton_append]
  refine ⟨hoff, ?_, ?_, ?_, ?_, ?_⟩
  · rw [hoff, List.length_scanl, groupSizes, groupSizesAux_length, hst,
      GenericListBuilder.runOps_len]
    simp [GenericListBuilder.new, GenericListBuilder.with_capacity]
  · rw [hoff]
    exact scanl_add_getD_zero _ 0
  · rw [hoff]
    exact scanl_add_chain _ 0
  · intro b is_valid
    exact ⟨rfl, rfl⟩
  · intro i hi
    rw [hoff]
    rw [scanl_add_getD (groupSizes ops) 0 i hi]
    omega

/-- C7 witness: delimiting the child values `[0,…,7]` after 3, 3 and 2
elements yields the offsets buffer `[0, 3, 6, 8]`, and the first two offsets
differ by 3. -/
theorem genericListBuilder_offsets_witness :
    (GenericListBuilder.runOps
        [ListOp.child (PrimOp.append_value 0), ListOp.child (PrimOp.append_value 1),
         ListOp.child (PrimOp.append_value 2), ListOp.append true,
         ListOp.child (PrimOp.append_value 3), ListOp.child (PrimOp.append_value 4),
         ListOp.child (PrimOp.append_value 5), ListOp.append true,
         ListOp.child (PrimOp.append_value 6), ListOp.child (PrimOp.append_value 7),
         ListOp.append true]
        (GenericListBuilder.new
          (PrimitiveBuilder.new Int 0))).offsets_builder.data = [0, 3, 6, 8]
    ∧ ([0, 3, 6, 8].getD 1 0 - [0, 3, 6, 8].getD 0 0 : Nat) = 3 := by
  have h := genericListBuilder_offsets
    [ListOp.child (PrimOp.append_value 0), ListOp.child (PrimOp.append_value 1),
     ListOp.child (PrimOp.append_value 2), ListOp.append true,
     ListOp.child (PrimOp.append_value 3), ListOp.child (PrimOp.append_value 4),
     ListOp.child (PrimOp.append_value 5), ListOp.append true,
     ListOp.child (PrimOp.append_value 6), ListOp.child (PrimOp.append_value 7),
     ListOp.append true] _ rfl
  have h6 := h.2.2.2.2.2 0 (by decide)
  refine ⟨?_, by decide⟩
  rw [h.1]
  decide

/-- Buffer builders with the same logical contents are equal. -/
lemma BufferBuilder.ext_data (x y : BufferBuilder α) (h : x.data = y.data) :
    x = y := by
  cases x; cases y; simpa using h

/-- Builder equivalence is preserved by every primitive operation. -/
lemma PrimitiveBuilder.equiv_step [Zero α] (b1 b2 : PrimitiveBuilder α)
    (h : b1.equiv b2) (op : PrimOp α) : (b1.step op).equiv (b2.step op) := by
  obtain ⟨hv, hbm⟩ := h
  cases hbm with
  | inl heq =>
    have : b1 = b2 := by
      cases b1; cases b2
      simp_all
    subst this
    exact ⟨rfl, Or.inl rfl⟩
  | inr hnone =>
    obtain ⟨h2, h1⟩ := hnone
    have e1 : (b1.step op).bitmap_builder
        = some ⟨List.replicate b1.values_builder.data.length true
            ++ primValidityDelta op⟩ := by
      rw [PrimitiveBuilder.step_bitmap, h1]
    have e2 : (b2.step op).bitmap_builder
        = if (primValidityDelta op).all (fun v => v) then none
          else some ⟨List.replicate b2.values_builder.data.length true
              ++ primValidityDelta op⟩ := by
      rw [PrimitiveBuilder.step_bitmap, h2]
    refine ⟨?_, ?_⟩
    · refine BufferBuilder.ext_data _ _ ?_
      rw [PrimitiveBuilder.step_values, PrimitiveBuilder.step_values, hv]
    · cases hall : (primValidityDelta op).all (fun v => v) with
      | true =>
        refine Or.inr ⟨by rw [e2, if_pos hall], ?_⟩
        have hrep := all_true_eq_replicate (primValidityDelta op) hall
        rw [e1, PrimitiveBuilder.step_values, List.length_append,
          primDelta_length, List.replicate_add, ← hrep]
      | false =>
        refine Or.inl ?_
        rw [e1, e2, if_neg (by simp [hall]), hv]

/-- Builder equivalence is preserved by whole runs. -/
lemma PrimitiveBuilder.equiv_runOps [Zero α] :
    ∀ (ops : List (PrimOp α)) (b1 b2 : PrimitiveBuilder α),
      b1.equiv b2 →
      (PrimitiveBuilder.runOps ops b1).equiv (PrimitiveBuilder.runOps ops b2) := by
  intro ops
  induction ops with
  | nil => intro b1 b2 h; exact h
  | cons op rest ih =>
    intro b1 b2 h
    exact ih (b1.step op) (b2.step op) (PrimitiveBuilder.equiv_step b1 b2 h op)

/-- Equivalent builders finish to the same array. -/
lemma PrimitiveBuilder.equiv_finish [Zero α] (b1 b2 : PrimitiveBuilder α)
    (h : b1.equiv b2) : b1.finish.1 = b2.finish.1 := by
  obtain ⟨hv, hbm⟩ := h
  cases hbm with
  | inl heq =>
    have : b1 = b2 := by
      cases b1; cases b2; simp_all
    rw [this]
  | inr hnone =>
    obtain ⟨h2, h1⟩ := hnone
    have hpc : popcount (List.replicate b1.values_builder.data.length true)
        = b1.values_builder.data.length := by
      simp [popcount, List.countP_replicate]
    have hnc1 : b1.finish_null_count = 0 := by
      simp [PrimitiveBuilder.finish_null_count, h1, hpc, PrimitiveBuilder.len,
        BufferBuilder.len]
    have hnc2 : b2.finish_null_count = 0 := by
      simp [PrimitiveBuilder.finish_null_count, h2]
    simp [PrimitiveBuilder.finish, hnc1, hnc2, PrimitiveBuilder.len,
      BufferBuilder.len, hv]

/-- The builder left behind by `finish` is equivalent to a fresh builder. -/
lemma PrimitiveBuilder.finish_reset_equiv [Zero α] (b : PrimitiveBuilder α) :
    (b.finish.2).equiv (PrimitiveBuilder.new α 0) := by
  refine ⟨rfl, ?_⟩
  cases hbm : b.bitmap_builder with
  | none =>
    refine Or.inl ?_
    simp [PrimitiveBuilder.finish, PrimitiveBuilder.new, hbm]
  | some bb =>
    refine Or.inr ⟨rfl, ?_⟩
    simp [PrimitiveBuilder.finish, hbm, BufferBuilder.new]

/-- List-builder equivalence is preserved by every list operation. -/
lemma GenericListBuilder.equivList_step [Zero α]
    (s1 s2 : GenericListBuilder α) (h : s1.equivList s2) (op : ListOp α) :
    (s1.step op).equivList (s2.step op) := by
  obtain ⟨ho, hb, hl, hchild⟩ := h
  cases op with
  | child p =>
    exact ⟨ho, hb, hl,
      PrimitiveBuilder.equiv_step _ _ hchild p⟩
  | append is_valid =>
    have hvlen : s1.values_builder.len = s2.values_builder.len := by
      show s1.values_builder.values_builder.len = s2.values_builder.values_builder.len
      rw [hchild.1]
    refine ⟨?_, ?_, ?_, hchild⟩
    · simp [GenericListBuilder.step, GenericListBuilder.append, ho, hvlen]
    · simp [GenericListBuilder.step, GenericListBuilder.append, hb]
    · simp [GenericListBuilder.step, GenericListBuilder.append, hl]

/-- List-builder equivalence is preserved by whole runs. -/
lemma GenericListBuilder.equivList_runOps [Zero α] :
    ∀ (ops : List (ListOp α)) (s1 s2 : GenericListBuilder α),
      s1.equivList s2 →
      (GenericListBuilder.runOps ops s1).equivList
        (GenericListBuilder.runOps ops s2) := by
  intro ops
  induction ops with
  | nil => intro s1 s2 h; exact h
  | cons op rest ih =>
    intro s1 s2 h
    exact ih (s1.step op) (s2.step op)
      (GenericListBuilder.equivList_step s1 s2 h op)

/-- Equivalent list builders finish to the same array. -/
lemma GenericListBuilder.equivList_finish [Zero α]
    (s1 s2 : GenericListBuilder α) (h : s1.equivList s2) :
    s1.finish.1 = s2.finish.1 := by
  obtain ⟨ho, hb, hl, hchild⟩ := h
  simp only [GenericListBuilder.finish]
  rw [ho, hb, hl, PrimitiveBuilder.equiv_finish _ _ hchild]

/-- The list builder left behind by `finish` is equivalent to a fresh list
builder over a fresh child. -/
lemma GenericListBuilder.finishList_reset_equiv [Zero α]
    (b : GenericListBuilder α) :
    (b.finish.2).equivList
      (GenericListBuilder.new (PrimitiveBuilder.new α 0)) := by
  exact ⟨rfl, rfl, rfl, PrimitiveBuilder.finish_reset_equiv b.values_builder⟩

/-- C9.  For the typed buffer builder, the bit buffer builder, the primitive
builder and the generic list builder: `finish` resets the logical length to 0
and leaves an empty reusable builder (the list builder's offsets builder
re-seeded with a single 0 entry), and a second run then finishes to exactly
the array a fresh builder would have produced for the same operations. -/
theorem builder_finish_resets_and_reuse (s1 s2 : List (BufOp Int))
    (t1 t2 : List BoolBufOp) (p1 p2 : List (PrimOp Int))
    (l1 l2 : List (ListOp Int)) :
    ((BufferBuilder.runOps s1 (BufferBuilder.new Int 0)).finish.2
        = BufferBuilder.new Int 0
      ∧ (BufferBuilder.runOps s2
          ((BufferBuilder.runOps s1 (BufferBuilder.new Int 0)).finish.2)).finish.1
        = (BufferBuilder.runOps s2 (BufferBuilder.new Int 0)).finish.1)
    ∧ ((BooleanBufferBuilder.runOps t1 (BooleanBufferBuilder.new 0)).finish.2
        = BooleanBufferBuilder.new 0
      ∧ (BooleanBufferBuilder.runOps t2
          ((BooleanBufferBuilder.runOps t1
            (BooleanBufferBuilder.new 0)).finish.2)).finish.1
        = (BooleanBufferBuilder.runOps t2 (BooleanBufferBuilder.new 0)).finish.1)
    ∧ (((PrimitiveBuilder.runOps p1 (PrimitiveBuilder.new Int 0)).finish.2).len = 0
      ∧ (PrimitiveBuilder.runOps p2
          ((PrimitiveBuilder.runOps p1 (PrimitiveBuilder.new Int 0)).finish.2)).finish.1
        = (PrimitiveBuilder.runOps p2 (PrimitiveBuilder.new Int 0)).finish.1)
    ∧ (((GenericListBuilder.runOps l1
          (GenericListBuilder.new (PrimitiveBuilder.new Int 0))).finish.2).len = 0
      ∧ ((GenericListBuilder.runOps l1
          (GenericListBuilder.new
            (PrimitiveBuilder.new Int 0))).finish.2).offsets_builder.data = [0]
      ∧ (GenericListBuilder.runOps l2
          ((GenericListBuilder.runOps l1
            (GenericListBuilder.new (PrimitiveBuilder.new Int 0))).finish.2)).finish.1
        = (GenericListBuilder.runOps l2
            (GenericListBuilder.new (PrimitiveBuilder.new Int 0))).finish.1) := by
  refine ⟨⟨rfl, by rfl⟩, ⟨rfl, by rfl⟩, ⟨rfl, ?_⟩, ⟨rfl, rfl, ?_⟩⟩
  · exact PrimitiveBuilder.equiv_finish _ _
      (PrimitiveBuilder.equiv_runOps p2 _ _
        (PrimitiveBuilder.finish_reset_equiv _))
  · exact GenericListBuilder.equivList_finish _ _
      (GenericListBuilder.equivList_runOps l2 _ _
        (GenericListBuilder.finishList_reset_equiv _))

/-- Appending a fresh element to a list places it at index `length`. -/
lemma indexOf_append_not_mem (l : List String) (n : String) (h : n ∉ l) :
    List.indexOf n (l ++ [n]) = l.length := by
  induction l with
  | nil => simp
  | cons m t ih =>
    have hmn : m ≠ n := by
      intro he; exact h (by simp [he])
    have hnt : n ∉ t := fun ht => h (by simp [ht])
    simp only [List.cons_append, List.length_cons]
    rw [List.indexOf_cons_ne _ (by simpa using hmn), ih hnt]

/-- Null-filling a union field keeps its type id. -/
lemma FieldData.append_null_type_id [Zero α] (fd : FieldData α) :
    (fd.append_null).type_id = fd.type_id := by
  cases hb : fd.bitmap_builder <;> simp [FieldData.append_null, hb]

/-- Dynamic null-filling keeps the type id. -/
lemma FieldData.append_null_dynamic_type_id [Zero α] (fd : FieldData α) :
    (fd.append_null_dynamic).type_id = fd.type_id :=
  FieldData.append_null_type_id fd

/-- Iterated null-backfill keeps the type id. -/
lemma FieldData.iterate_append_null_type_id [Zero α] (n : Nat) (fd : FieldData α) :
    (FieldData.append_null^[n] fd).type_id = fd.type_id := by
  induction n with
  | zero => rfl
  | succ n ih =>
    rw [Function.iterate_succ_apply', FieldData.append_null_type_id, ih]

/-- Removing a key from an association list erases it from the key list. -/
lemma assocRemove_keys (name : String) :
    ∀ l : List (String × FieldData α),
      ((assocRemove name l).2.map Prod.fst) = (l.map Prod.fst).erase name := by
  intro l
  induction l with
  | nil => simp [assocRemove]
  | cons p rest ih =>
    obtain ⟨m, fd⟩ := p
    by_cases hm : m = name
    · subst hm
      simp [assocRemove, List.erase_cons]
    · simp [assocRemove, hm, List.erase_cons, ih]

/-- A key reported absent by `assocRemove` is absent, and the list is
returned unchanged. -/
lemma assocRemove_none (name : String) :
    ∀ l : List (String × FieldData α), (assocRemove name l).1 = none →
      (assocRemove name l).2 = l ∧ name ∉ l.map Prod.fst := by
  intro l
  induction l with
  | nil => intro _; simp [assocRemove]
  | cons p rest ih =>
    obtain ⟨m, fd⟩ := p
    intro h
    by_cases hm : m = name
    · subst hm
      simp [assocRemove] at h
    · simp only [assocRemove, hm, if_false, ite_false] at h ⊢
      have := ih h
      simp [this.1, this.2, hm]
      intro he
      exact hm he.symm

/-- A removed entry was present. -/
lemma assocRemove_some (name : String) :
    ∀ (l : List (String × FieldData α)) (fd : FieldData α),
      (assocRemove name l).1 = some fd → (name, fd) ∈ l := by
  intro l
  induction l with
  | nil => intro fd h; simp [assocRemove] at h
  | cons p rest ih =>
    obtain ⟨m, fd0⟩ := p
    intro fd h
    by_cases hm : m = name
    · subst hm
      simp [assocRemove] at h
      simp [h]
    · simp only [assocRemove, hm, if_false, ite_false] at h
      exact List.mem_cons_of_mem _ (ih fd h)

/-- The remainder of a removal is a sublist of the original entries. -/
lemma assocRemove_sub (name : String) :
    ∀ l : List (String × FieldData α),
      ∀ p ∈ (assocRemove name l).2, p ∈ l := by
  intro l
  induction l with
  | nil => intro p hp; simp [assocRemove] at hp
  | cons q rest ih =>
    obtain ⟨m, fd0⟩ := q
    intro p hp
    by_cases hm : m = name
    · subst hm
      simp only [assocRemove, if_pos rfl] at hp
      exact List.mem_cons_of_mem _ hp
    · simp only [assocRemove, hm, if_false, ite_false, List.mem_cons] at hp
      cases hp with
      | inl he => simp [he]
      | inr hp => exact List.mem_cons_of_mem _ (ih p hp)

/-- With distinct keys, an association list holds one entry per key. -/
lemma assoc_nodup_entry_eq :
    ∀ (l : List (String × FieldData α)) (n : String) (fd1 fd2 : FieldData α),
      (l.map Prod.fst).Nodup → (n, fd1) ∈ l → (n, fd2) ∈ l → fd1 = fd2 := by
  intro l
  induction l with
  | nil => intro n fd1 fd2 _ h1; simp at h1
  | cons p rest ih =>
    obtain ⟨m, fd0⟩ := p
    intro n fd1 fd2 hnd h1 h2
    simp only [List.map_cons, List.nodup_cons] at hnd
    simp only [List.mem_cons, Prod.mk.injEq] at h1 h2
    cases h1 with
    | inl he1 =>
      cases h2 with
      | inl he2 => rw [he1.2, he2.2]
      | inr h2 =>
        exfalso
        have hmem : n ∈ List.map Prod.fst rest :=
          List.mem_map.mpr ⟨(n, fd2), h2, rfl⟩
        rw [he1.1] at hmem
        exact hnd.1 hmem
    | inr h1 =>
      cases h2 with
      | inl he2 =>
        exfalso
        have hmem : n ∈ List.map Prod.fst rest :=
          List.mem_map.mpr ⟨(n, fd1), h1, rfl⟩
        rw [he2.1] at hmem
        exact hnd.1 hmem
      | inr h2 => exact ih n fd1 fd2 hnd.2 h1 h2

/-- Mapping a value transformation over an association list keeps the keys. -/
lemma map_pair_keys (f : FieldData α → FieldData α) :
    ∀ l : List (String × FieldData α),
      ((l.map (fun nf => (nf.1, f nf.2))).map Prod.fst) = l.map Prod.fst := by
  intro l
  induction l with
  | nil => rfl
  | cons p rest ih => simp [ih]

/-- Null-filling every field of a registry preserves the invariant. -/
lemma unionInvFields_map_null [Zero α] (seen : List String)
    (fields : List (String × FieldData α))
    (h : UnionInvFields seen fields) :
    UnionInvFields seen
      (fields.map (fun nf => (nf.1, nf.2.append_null_dynamic))) := by
  obtain ⟨hnd, hmem, hlen, hids⟩ := h
  refine ⟨?_, ?_, ?_, ?_⟩
  · rw [map_pair_keys]; exact hnd
  · intro n; rw [map_pair_keys]; exact hmem n
  · rw [List.length_map]; exact hlen
  · intro nf hnf
    obtain ⟨nf0, hnf0, he⟩ := List.mem_map.mp hnf
    rw [← he]
    simp only [FieldData.append_null_dynamic_type_id]
    exact hids nf0 hnf0

/-- Re-inserting an already-registered field at the back of the registry,
with its type id unchanged, preserves the invariant. -/
lemma unionInvFields_reinsert [Zero α] (seen : List String)
    (fields rest2 : List (String × FieldData α)) (name : String)
    (fdnew : FieldData α)
    (h : UnionInvFields seen fields)
    (hkeys2 : rest2.map Prod.fst = (fields.map Prod.fst).erase name)
    (hsub : ∀ nf ∈ rest2, ∃ fd0, (nf.1, fd0) ∈ fields
      ∧ nf.2.type_id = fd0.type_id)
    (hname : name ∈ fields.map Prod.fst)
    (hidnew : fdnew.type_id = wrapI8 (List.indexOf name seen)) :
    UnionInvFields seen (rest2 ++ [(name, fdnew)]) := by
  obtain ⟨hnd, hmem, hlen, hids⟩ := h
  refine ⟨?_, ?_, ?_, ?_⟩
  · rw [List.map_append, List.nodup_append, hkeys2]
    refine ⟨hnd.erase name, by simp, ?_⟩
    intro a ha hb
    simp only [List.map_cons, List.map_nil, List.mem_singleton] at hb
    subst hb
    exact ((hnd.mem_erase_iff).mp ha).1 rfl
  · intro n
    rw [List.map_append, List.mem_append, hkeys2]
    simp only [List.map_cons, List.map_nil, List.mem_singleton]
    rw [hnd.mem_erase_iff]
    constructor
    · intro hc
      cases hc with
      | inl hc => exact (hmem n).mp hc.2
      | inr hc => rw [hc]; exact (hmem name).mp hname
    · intro hn
      by_cases he : n = name
      · exact Or.inr he
      · exact Or.inl ⟨he, (hmem n).mpr hn⟩
  · have h2 : rest2.length = fields.length - 1 := by
      have := congrArg List.length hkeys2
      simpa [List.length_erase_of_mem hname] using this
    have hpos : 0 < fields.length := by
      cases fields with
      | nil => simp at hname
      | cons p rest => simp
    simp only [List.length_append, List.length_cons, List.length_nil, h2]
    omega
  · intro nf hnf
    rw [List.mem_append] at hnf
    cases hnf with
    | inl hnf =>
      obtain ⟨fd0, hfd0, hid0⟩ := hsub nf hnf
      rw [hid0]
      exact hids (nf.1, fd0) hfd0
    | inr hnf =>
      simp only [List.mem_singleton] at hnf
      subst hnf
      exact hidnew

/-- Inserting a new field with type id `wrap(fields.len())` at the back of
the registry grows the invariant by the new name. -/
lemma unionInvFields_insert_new [Zero α] (seen : List String)
    (fields rest2 : List (String × FieldData α)) (name : String)
    (fdnew : FieldData α)
    (h : UnionInvFields seen fields)
    (hkeys2 : rest2.map Prod.fst = fields.map Prod.fst)
    (hsub : ∀ nf ∈ rest2, ∃ fd0, (nf.1, fd0) ∈ fields
      ∧ nf.2.type_id = fd0.type_id)
    (hname : name ∉ fields.map Prod.fst)
    (hidnew : fdnew.type_id = wrapI8 fields.length) :
    UnionInvFields (seen ++ [name]) (rest2 ++ [(name, fdnew)]) := by
  obtain ⟨hnd, hmem, hlen, hids⟩ := h
  have hnseen : name ∉ seen := fun hs => hname ((hmem name).mpr hs)
  refine ⟨?_, ?_, ?_, ?_⟩
  · rw [List.map_append, List.nodup_append, hkeys2]
    refine ⟨hnd, by simp, ?_⟩
    intro a ha hb
    simp only [List.map_cons, List.map_nil, List.mem_singleton] at hb
    subst hb
    exact hname ha
  · intro n
    rw [List.map_append, List.mem_append, hkeys2, List.mem_append]
    simp only [List.map_cons, List.map_nil, List.mem_singleton]
    constructor
    · intro hc
      cases hc with
      | inl hc => exact Or.inl ((hmem n).mp hc)
      | inr hc => exact Or.inr (by simp [hc])
    · intro hc
      cases hc with
      | inl hc => exact Or.inl ((hmem n).mpr hc)
      | inr hc => exact Or.inr (by simpa using hc)
  · have h2 : rest2.length = fields.length := by
      have := congrArg List.length hkeys2
      simpa using this
    simp [h2, hlen]
  · intro nf hnf
    rw [List.mem_append] at hnf
    cases hnf with
    | inl hnf =>
      obtain ⟨fd0, hfd0, hid0⟩ := hsub nf hnf
      have hm : nf.1 ∈ seen := by
        refine (hmem nf.1).mp ?_
        rw [← hkeys2]
        exact List.mem_map.mpr ⟨nf, hnf, rfl⟩
      rw [hid0, List.indexOf_append_of_mem hm]
      exact hids (nf.1, fd0) hfd0
    | inr hnf =>
      simp only [List.mem_singleton] at hnf
      subst hnf
      simp only []
      rw [indexOf_append_not_mem seen name hnseen, hidnew, hlen]

/-- One union operation preserves the registry invariant, the first-seen
accumulator advancing in lock step. -/
lemma unionInv_step [Zero α] (seen : List String) (b : UnionBuilder α)
    (op : UnionOp α) (h : UnionInv seen b) :
    UnionInv (stepSeen seen op) (b.step op) := by
  cases op with
  | append_null =>
    show UnionInvFields seen (b.append_null).fields
    by_cases hvo : b.value_offset_builder.isNone
    · have hfields : (b.append_null).fields
          = b.fields.map (fun nf => (nf.1, nf.2.append_null_dynamic)) := by
        simp [UnionBuilder.append_null, hvo]
      rw [hfields]
      exact unionInvFields_map_null seen b.fields h
    · have hfields : (b.append_null).fields = b.fields := by
        simp [UnionBuilder.append_null, hvo]
      rw [hfields]
      exact h
  | append name v =>
    have hmem := h.2.1
    show UnionInvFields (stepSeen seen (UnionOp.append name v))
      (b.append name v).fields
    cases hfound : (assocRemove name b.fields).1 with
    | some fd =>
      have hmemname : name ∈ b.fields.map Prod.fst :=
        List.mem_map.mpr ⟨(name, fd), assocRemove_some name b.fields fd hfound, rfl⟩
      have hseen : name ∈ seen := (hmem name).mp hmemname
      have hstep : stepSeen seen (UnionOp.append name v) = seen := by
        simp [stepSeen, hseen]
      rw [hstep]
      have hfields : (b.append name v).fields
          = (if b.value_offset_builder.isNone then
              (assocRemove name b.fields).2.map
                (fun nf => (nf.1, nf.2.append_null_dynamic))
             else (assocRemove name b.fields).2)
            ++ [(name, fd.append_to_values_buffer v)] := by
        cases hvo : b.value_offset_builder <;>
          simp [UnionBuilder.append, hfound, hvo]
      rw [hfields]
      refine unionInvFields_reinsert seen b.fields _ name _ h ?_ ?_ hmemname ?_
      · by_cases hvo : b.value_offset_builder.isNone
        · rw [if_pos hvo, map_pair_keys, assocRemove_keys]
        · rw [if_neg hvo, assocRemove_keys]
      · intro nf hnf
        by_cases hvo : b.value_offset_builder.isNone
        · rw [if_pos hvo] at hnf
          obtain ⟨⟨m0, fd0⟩, hnf0, he⟩ := List.mem_map.mp hnf
          subst he
          exact ⟨fd0, assocRemove_sub name b.fields (m0, fd0) hnf0,
            FieldData.append_null_dynamic_type_id fd0⟩
        · rw [if_neg hvo] at hnf
          obtain ⟨m0, fd0⟩ := nf
          exact ⟨fd0, assocRemove_sub name b.fields (m0, fd0) hnf, rfl⟩
      · show (fd.append_to_values_buffer v).type_id = _
        have : (fd.append_to_values_buffer v).type_id = fd.type_id := rfl
        rw [this]
        exact h.2.2.2 (name, fd) (assocRemove_some name b.fields fd hfound)
    | none =>
      obtain ⟨hrest, hnkeys⟩ := assocRemove_none name b.fields hfound
      have hnseen : name ∉ seen := fun hs => hnkeys ((hmem name).mpr hs)
      have hstep : stepSeen seen (UnionOp.append name v) = seen ++ [name] := by
        simp [stepSeen, hnseen]
      rw [hstep]
      cases hvo : b.value_offset_builder with
      | some ob =>
        have hfields : (b.append name v).fields
            = (assocRemove name b.fields).2
              ++ [(name,
                  (FieldData.new (α := α)
                    (wrapI8 (assocRemove name b.fields).2.length)
                    none).append_to_values_buffer v)] := by
          simp [UnionBuilder.append, hfound, hvo]
        rw [hfields, hrest]
        refine unionInvFields_insert_new seen b.fields b.fields name _ h rfl
          ?_ hnkeys ?_
        · intro nf hnf
          obtain ⟨m0, fd0⟩ := nf
          exact ⟨fd0, hnf, rfl⟩
        · rfl
      | none =>
        have hfields : (b.append name v).fields
            = (assocRemove name b.fields).2.map
                (fun nf => (nf.1, nf.2.append_null_dynamic))
              ++ [(name,
                  (FieldData.append_null^[b.len]
                    (FieldData.new (α := α)
                      (wrapI8 (assocRemove name b.fields).2.length)
                      (some (BooleanBufferBuilder.new 1)))).append_to_values_buffer
                    v)] := by
          simp [UnionBuilder.append, hfound, hvo]
        rw [hfields, hrest]
        refine unionInvFields_insert_new seen b.fields _ name _ h
          (map_pair_keys _ b.fields) ?_ hnkeys ?_
        · intro nf hnf
          obtain ⟨⟨m0, fd0⟩, hnf0, he⟩ := List.mem_map.mp hnf
          subst he
          exact ⟨fd0, hnf0, FieldData.append_null_dynamic_type_id fd0⟩
        · have h1 : ∀ fd : FieldData α,
              (fd.append_to_values_buffer v).type_id = fd.type_id := fun _ => rfl
          rw [h1, FieldData.iterate_append_null_type_id]
          rfl

/-- The registry invariant holds after any union run. -/
lemma unionInv_runOps [Zero α] :
    ∀ (ops : List (UnionOp α)) (seen : List String) (b : UnionBuilder α),
      UnionInv seen b →
      UnionInv (firstSeenAux seen ops) (UnionBuilder.runOps ops b) := by
  intro ops
  induction ops with
  | nil => intro seen b h; exact h
  | cons op rest ih =>
    intro seen b h
    exact ih (stepSeen seen op) (b.step op) (unionInv_step seen b op h)

/-- A fresh union builder (dense or sparse) satisfies the empty invariant. -/
lemma unionInv_init [Zero α] (init : UnionBuilder α)
    (h : init = UnionBuilder.new_dense α 0 ∨ init = UnionBuilder.new_sparse α 0) :
    UnionInv ([] : List String) init := by
  cases h with
  | inl h => subst h; exact ⟨by simp [UnionBuilder.new_dense],
      by simp [UnionBuilder.new_dense], by simp [UnionBuilder.new_dense],
      by simp [UnionBuilder.new_dense]⟩
  | inr h => subst h; exact ⟨by simp [UnionBuilder.new_sparse],
      by simp [UnionBuilder.new_sparse], by simp [UnionBuilder.new_sparse],
      by simp [UnionBuilder.new_sparse]⟩

/-- The first-seen accumulator keeps its names distinct. -/
lemma firstSeenAux_nodup :
    ∀ (ops : List (UnionOp α)) (seen : List String), seen.Nodup →
      (firstSeenAux seen ops).Nodup := by
  intro ops
  induction ops with
  | nil => intro seen h; exact h
  | cons op rest ih =>
    intro seen h
    refine ih (stepSeen seen op) ?_
    cases op with
    | append name v =>
      by_cases hm : name ∈ seen
      · simpa [stepSeen, hm] using h
      · simp only [stepSeen, hm, if_false, ite_false]
        rw [List.nodup_append]
        exact ⟨h, by simp, fun a ha hb => hm (by simpa [List.mem_singleton.mp (by simpa using hb)] using ha)⟩
    | append_null => exact h

/-- The `as i8` cast is the identity below 128. -/
lemma wrapI8_eq_of_lt (k : Nat) (h : k < 128) : wrapI8 k = (k : Int) := by
  rw [wrapI8, Nat.mod_eq_of_lt (by omega)]
  push_cast
  omega

/-- Ordered insertion permutes the inserted element to the front. -/
lemma insertByTypeId_perm (x : Int × UnionChildArray α) :
    ∀ l : List (Int × UnionChildArray α),
      (insertByTypeId x l).Perm (x :: l) := by
  intro l
  induction l with
  | nil => simp [insertByTypeId]
  | cons y ys ih =>
    by_cases hxy : x.1 ≤ y.1
    · simp [insertByTypeId, hxy]
    · rw [insertByTypeId, if_neg hxy]
      exact (ih.cons y).trans (List.Perm.swap x y ys)

/-- The stable sort is a permutation of its input. -/
lemma sortByTypeId_perm :
    ∀ l : List (Int × UnionChildArray α), (sortByTypeId l).Perm l := by
  intro l
  induction l with
  | nil => simp [sortByTypeId]
  | cons x xs ih =>
    exact (insertByTypeId_perm x (sortByTypeId xs)).trans (ih.cons x)

/-- Ordered insertion into a type-id-sorted list keeps it sorted. -/
lemma insertByTypeId_pairwise (x : Int × UnionChildArray α) :
    ∀ l : List (Int × UnionChildArray α),
      l.Pairwise (fun a b => a.1 ≤ b.1) →
      (insertByTypeId x l).Pairwise (fun a b => a.1 ≤ b.1) := by
  intro l
  induction l with
  | nil => intro _; simp [insertByTypeId]
  | cons y ys ih =>
    intro h
    by_cases hxy : x.1 ≤ y.1
    · rw [insertByTypeId, if_pos hxy]
      refine List.Pairwise.cons ?_ h
      intro z hz
      rcases List.mem_cons.mp hz with he | hz
      · rw [he]; exact hxy
      · exact le_trans hxy (List.rel_of_pairwise_cons h hz)
    · rw [insertByTypeId, if_neg hxy]
      have hyx : y.1 ≤ x.1 := le_of_not_le hxy
      refine List.Pairwise.cons ?_ (ih (h.of_cons))
      intro z hz
      have hz' := (insertByTypeId_perm x ys).mem_iff.mp hz
      rcases List.mem_cons.mp hz' with he | hz'
      · rw [he]; exact hyx
      · exact List.rel_of_pairwise_cons h hz'

/-- The stable sort produces a type-id-sorted list. -/
lemma sortByTypeId_pairwise :
    ∀ l : List (Int × UnionChildArray α),
      (sortByTypeId l).Pairwise (fun a b => a.1 ≤ b.1) := by
  intro l
  induction l with
  | nil => simp [sortByTypeId]
  | cons x xs ih => exact insertByTypeId_pairwise x (sortByTypeId xs) ih

/-- Two sorted permutations of each other with distinct type ids are equal. -/
lemma sorted_perm_keyNodup_eq :
    ∀ (l1 l2 : List (Int × UnionChildArray α)),
      l1.Pairwise (fun a b => a.1 ≤ b.1) →
      l2.Pairwise (fun a b => a.1 ≤ b.1) →
      l1.Perm l2 → (l1.map Prod.fst).Nodup → l1 = l2 := by
  intro l1
  induction l1 with
  | nil =>
    intro l2 _ _ hperm _
    exact (hperm.symm.eq_nil).symm
  | cons x l1' ih =>
    intro l2 h1 h2 hperm hnd
    cases l2 with
    | nil => exact absurd hperm.eq_nil (by simp)
    | cons y l2' =>
      have hxy : x = y := by
        by_contra hne
        have hx2 : x ∈ y :: l2' := hperm.subset (List.mem_cons_self x l1')
        have hy1 : y ∈ x :: l1' := hperm.symm.subset (List.mem_cons_self y l2')
        have hx2' : x ∈ l2' := by
          rcases List.mem_cons.mp hx2 with he | hm
          · exact absurd he hne
          · exact hm
        have hy1' : y ∈ l1' := by
          rcases List.mem_cons.mp hy1 with he | hm
          · exact absurd he.symm hne
          · exact hm
        have hle1 : x.1 ≤ y.1 := List.rel_of_pairwise_cons h1 hy1'
        have hle2 : y.1 ≤ x.1 := List.rel_of_pairwise_cons h2 hx2'
        have heq : x.1 = y.1 := le_antisymm hle1 hle2
        simp only [List.map_cons, List.nodup_cons] at hnd
        exact hnd.1 (heq ▸ List.mem_map.mpr ⟨y, hy1', rfl⟩)
      subst hxy
      have hperm' : l1'.Perm l2' := hperm.cons_inv
      have hnd' : (l1'.map Prod.fst).Nodup := by
        simp only [List.map_cons, List.nodup_cons] at hnd
        exact hnd.2
      rw [ih l2' h1.of_cons h2.of_cons hperm' hnd']

/-- The tags of the collected union children are the fields' type ids. -/
lemma buildChildren_keys (l : List (String × FieldData α)) :
    (buildChildren l).map Prod.fst = l.map (fun nf => nf.2.type_id) := by
  simp [buildChildren, List.map_map, Function.comp]

/-- C6 (amended).  Over any union run registering at most 128 distinct field
names, every registered field's type id equals its name's first-seen index —
consecutive integers starting at 0 — and `build` emits the children sorted by
ascending type id, yielding the same result for every iteration order of the
registry; with more than 128 distinct fields the `as i8` cast wraps (see the
counterexample). -/
theorem unionBuilder_type_ids_and_sorted_build (ops : List (UnionOp Int))
    (init st : UnionBuilder Int)
    (hinit : init = UnionBuilder.new_dense Int 0
      ∨ init = UnionBuilder.new_sparse Int 0)
    (hst : st = UnionBuilder.runOps ops init)
    (h128 : (firstSeenU ops).length ≤ 128) :
    (∀ nf ∈ st.fields,
        nf.2.type_id = (List.indexOf nf.1 (firstSeenU ops) : Int)
        ∧ List.indexOf nf.1 (firstSeenU ops) < (firstSeenU ops).length)
    ∧ (∀ p1 p2 : List (String × FieldData Int),
        p1.Perm st.fields → p2.Perm st.fields → st.build p1 = st.build p2)
    ∧ (∀ p : List (String × FieldData Int),
        (sortByTypeId (buildChildren p)).Pairwise (fun a b => a.1 ≤ b.1)) := by
  have hInv : UnionInv (firstSeenU ops) st := by
    rw [hst, firstSeenU]
    exact unionInv_runOps ops [] init (unionInv_init init hinit)
  obtain ⟨hnd, hmem, hlen, hids⟩ := hInv
  have hid_of_mem : ∀ nf ∈ st.fields,
      nf.2.type_id = (List.indexOf nf.1 (firstSeenU ops) : Int)
      ∧ List.indexOf nf.1 (firstSeenU ops) < (firstSeenU ops).length := by
    intro nf hnf
    have hkmem : nf.1 ∈ st.fields.map Prod.fst :=
      List.mem_map.mpr ⟨nf, hnf, rfl⟩
    have hseenm : nf.1 ∈ firstSeenU ops := (hmem nf.1).mp hkmem
    have hidx : List.indexOf nf.1 (firstSeenU ops) < (firstSeenU ops).length :=
      List.indexOf_lt_length.mpr hseenm
    refine ⟨?_, hidx⟩
    rw [hids nf hnf, wrapI8_eq_of_lt _ (by omega)]
  refine ⟨hid_of_mem, ?_, fun p => sortByTypeId_pairwise _⟩
  intro p1 p2 hp1 hp2
  have hkeysnd : ((buildChildren st.fields).map Prod.fst).Nodup := by
    rw [buildChildren_keys]
    refine List.Nodup.map_on ?_ ?_
    · intro x hx y hy hxy
      have hix := (hid_of_mem x hx).1
      have hiy := (hid_of_mem y hy).1
      rw [hix, hiy] at hxy
      have hidx : List.indexOf x.1 (firstSeenU ops)
          = List.indexOf y.1 (firstSeenU ops) := by exact_mod_cast hxy
      have hxm : x.1 ∈ firstSeenU ops :=
        (hmem x.1).mp (List.mem_map.mpr ⟨x, hx, rfl⟩)
      have hym : y.1 ∈ firstSeenU ops :=
        (hmem y.1).mp (List.mem_map.mpr ⟨y, hy, rfl⟩)
      have hname : x.1 = y.1 := (List.indexOf_inj hxm hym).mp hidx
      obtain ⟨nx, fx⟩ := x
      obtain ⟨ny, fy⟩ := y
      simp only [] at hname
      subst hname
      have : fx = fy := assoc_nodup_entry_eq st.fields nx fx fy hnd hx hy
      rw [this]
    · -- the pairs themselves are distinct because the names are
      refine List.Nodup.of_map Prod.fst ?_
      exact hnd
  have hsorteq :
      sortByTypeId (buildChildren p1) = sortByTypeId (buildChildren p2) := by
    refine sorted_perm_keyNodup_eq _ _ (sortByTypeId_pairwise _)
      (sortByTypeId_pairwise _) ?_ ?_
    · exact (sortByTypeId_perm _).trans
        (((hp1.map _).trans (hp2.map _).symm).trans (sortByTypeId_perm _).symm)
    · have hperm : (sortByTypeId (buildChildren p1)).Perm
          (buildChildren st.fields) :=
        (sortByTypeId_perm _).trans (hp1.map _)
      exact (hperm.map Prod.fst).symm.nodup hkeysnd
  rw [UnionBuilder.build, UnionBuilder.build, hsorteq]

/-- C6 counterexample.  Type ids are not assigned as consecutive integers
starting at 0 for every sequence of appends: after appending to 129 distinct
field names, the 129th field (first-seen index 128) carries type id `-128`,
the `as i8` wrap of 128, not 128. -/
theorem unionBuilder_type_id_wrap_counterexample :
    ((assocLookup "128"
        (UnionBuilder.runOps
          ((List.range 129).map (fun i => UnionOp.append (toString i) (0 : Int)))
          (UnionBuilder.new_dense Int 0)).fields).map FieldData.type_id)
      = some (-128)
    ∧ ((-128 : Int) ≠ (128 : Int))
    ∧ List.indexOf "128"
        (firstSeenU
          ((List.range 129).map (fun i => UnionOp.append (toString i) (0 : Int))))
      = 128 := by
  refine ⟨by set_option maxRecDepth 100000 in decide, by decide,
    by set_option maxRecDepth 100000 in decide⟩

/-- C6 witness: building a two-field union over the reversed registry
iteration order yields the same union as the in-order iteration. -/
theorem unionBuilder_type_ids_and_sorted_build_witness :
    (UnionBuilder.runOps [UnionOp.append "b" (5 : Int), UnionOp.append "a" 6]
        (UnionBuilder.new_dense Int 0)).build
      ((UnionBuilder.runOps [UnionOp.append "b" (5 : Int), UnionOp.append "a" 6]
        (UnionBuilder.new_dense Int 0)).fields.reverse)
    = (UnionBuilder.runOps [UnionOp.append "b" (5 : Int), UnionOp.append "a" 6]
        (UnionBuilder.new_dense Int 0)).build
      (UnionBuilder.runOps [UnionOp.append "b" (5 : Int), UnionOp.append "a" 6]
        (UnionBuilder.new_dense Int 0)).fields := by
  have h := unionBuilder_type_ids_and_sorted_build
    [UnionOp.append "b" (5 : Int), UnionOp.append "a" 6]
    (UnionBuilder.new_dense Int 0) _ (Or.inl rfl) rfl (by decide)
  exact h.2.1 _ _ (List.reverse_perm _) (List.Perm.refl _)

/-- C10.  `UnionBuilder::append_null` appends `i8::default() = 0` to the
type-id buffer, the same type id that the first-registered field carries, so
the type-id buffer alone cannot distinguish a null row from a row of field 0:
the two-op runs `append("a", 1); append_null()` and
`append("a", 1); append("a", 0)` produce identical type-id buffers and differ
only in the lazily materialized top-level validity bitmap, which on a first
null is created with a `true` backfill for every prior row followed by
`false`. -/
theorem unionBuilder_append_null_type_id_zero :
    (∀ b : UnionBuilder Int,
        (b.append_null).type_id_builder.data = b.type_id_builder.data ++ [0])
    ∧ (∀ b : UnionBuilder Int, b.bitmap_builder = none →
        (b.append_null).bitmap_builder
          = some ⟨List.replicate b.len true ++ [false]⟩)
    ∧ (∀ (ops : List (UnionOp Int)) (init : UnionBuilder Int),
        init = UnionBuilder.new_dense Int 0
          ∨ init = UnionBuilder.new_sparse Int 0 →
        ∀ nf ∈ (UnionBuilder.runOps ops init).fields,
          (firstSeenU ops).head? = some nf.1 → nf.2.type_id = 0)
    ∧ ((UnionBuilder.runOps [UnionOp.append "a" (1 : Int), UnionOp.append_null]
          (UnionBuilder.new_dense Int 0)).type_id_builder.data
        = (UnionBuilder.runOps [UnionOp.append "a" (1 : Int), UnionOp.append "a" 0]
            (UnionBuilder.new_dense Int 0)).type_id_builder.data)
    ∧ ((UnionBuilder.runOps [UnionOp.append "a" (1 : Int), UnionOp.append_null]
          (UnionBuilder.new_dense Int 0)).bitmap_builder
        ≠ (UnionBuilder.runOps [UnionOp.append "a" (1 : Int), UnionOp.append "a" 0]
            (UnionBuilder.new_dense Int 0)).bitmap_builder) := by
  refine ⟨?_, ?_, ?_, by decide, by decide⟩
  · intro b
    simp [UnionBuilder.append_null, BufferBuilder.append]
  · intro b hb
    simp [UnionBuilder.append_null, hb, BooleanBufferBuilder.append,
      BooleanBufferBuilder.append_n, BooleanBufferBuilder.new]
  · intro ops init hinit nf hnf hhead
    have hInv : UnionInv (firstSeenU ops) (UnionBuilder.runOps ops init) := by
      rw [firstSeenU]
      exact unionInv_runOps ops [] init (unionInv_init init hinit)
    have hid := hInv.2.2.2 nf hnf
    cases hseen : firstSeenU ops with
    | nil => rw [hseen] at hhead; simp at hhead
    | cons m rest =>
      rw [hseen] at hhead hid
      simp only [List.head?_cons, Option.some.injEq] at hhead
      rw [← hhead, List.indexOf_cons_self] at hid
      rw [hid]
      exact wrapI8_eq_of_lt 0 (by omega)

/-- C10 witness: after one append to field "a", a null row appends type id 0,
materializes the bitmap as `[true, false]`, and field "a" itself carries type
id 0. -/
theorem unionBuilder_append_null_type_id_zero_witness :
    ((UnionBuilder.runOps [UnionOp.append "a" (1 : Int)]
        (UnionBuilder.new_dense Int 0)).append_null).bitmap_builder
      = some ⟨[true, false]⟩
    ∧ ((("a", (⟨0, [1], 1, none⟩ : FieldData Int)) :
          String × FieldData Int)).2.type_id = 0 := by
  have h := unionBuilder_append_null_type_id_zero
  constructor
  · rw [h.2.1 _ (by decide)]
    rfl
  · exact h.2.2.1 [UnionOp.append "a" (1 : Int)] _ (Or.inl rfl)
      ("a", ⟨0, [1], 1, none⟩) (by decide) (by decide)

end ArrowBuilder
